import Mathlib

/-!
Shallow embedding of the chutoro-core HNSW index
(src/chutoro-core/src/hnsw/{mod,graph,insert,node,search,types}.rs and
src/chutoro-core/src/datasource.rs).

Modelling conventions:
* Rust f32 distances are modelled by FVal: a finite rational payload or one of
  the non-finite values (nan, positive infinity, negative infinity).  The code
  validates every oracle value for finiteness before using it, so validated
  distances are carried as plain rationals.  The two IEEE zeroes and the two
  NaN pay 1oad classes are collapsed; no claim depends on them.
* Rust Vec sorts (sort_unstable_by with Neighbour total_cmp keys) are modelled
  by List.insertionSort.  The code's unstable sort guarantees only a
  permutation of its input that is sorted under the comparator — the relative
  order of equal keys is unspecified and implementation-dependent — and
  insertionSort is one refinement of that contract.  Every theorem below is
  insensitive to which order an implementation picks among equal distances,
  so no proof relies on the stability of the chosen model; a property that
  does turn on the equal-key order (a tie-break policy) is not settled here,
  because the source does not determine it.
* Methods taking &mut self are modelled as functions returning the final state
  paired with the Except result, so a failing call still exposes the state it
  leaves behind, exactly as the Rust borrow does.
* The SmallRng level sampler is modelled by an explicit stream of fair-coin
  flips (Nat -> Bool); CpuHnsw::insert consumes one stream per call.
* The rayon parallel trim-job map is modelled sequentially (List.mapM); every
  job is a pure function of its inputs, so the set of results is the same.
* The two search loops (greedy descent, best-first layer expansion) are
  modelled with an explicit fuel argument; exhaustion yields a
  GraphInvariantViolation artefact error.  Every theorem below about search
  concerns behaviour before the loops consume fuel, so its value is irrelevant.
* The BinaryHeap frontier and result set of search_layer are modelled as
  lists kept sorted by distance; heap order among equal distances is
  unspecified in Rust and no claim below depends on it.
-/

/-- Error type of the distance oracle (datasource.rs, DataSourceError). -/
inductive DataSourceError where
  | outOfBounds (index : Nat)
  | operation (message : String)
deriving DecidableEq, Repr

/-- Model of an f32 distance value: finite payload or a non-finite class. -/
inductive FVal where
  | finite (q : ℚ)
  | nan
  | posInf
  | negInf
deriving DecidableEq, Repr

/-- Mirrors f32::is_finite. -/
def FVal.isFinite : FVal → Bool
  | .finite _ => true
  | _ => false

/-- Payload of a finite value; only ever applied to validated-finite values. -/
def FVal.toRat : FVal → ℚ
  | .finite q => q
  | _ => 0

/-- Distance oracle (datasource.rs, trait DataSource).  batch_distances is an
overridable trait method, so it is an independent field; the default
implementation is defaultBatch below. -/
structure DataSource where
  distance : Nat → Nat → Except DataSourceError FVal
  batch_distances : Nat → List Nat → Except DataSourceError (List FVal)

/-- Default batch_distances implementation: per-candidate calls to distance,
short-circuiting on the first error (datasource.rs lines 50-60). -/
def defaultBatch (d : Nat → Nat → Except DataSourceError FVal) (query : Nat)
    (candidates : List Nat) : Except DataSourceError (List FVal) :=
  candidates.mapM (d query)

/-- Error type of the index (hnsw/mod.rs, HnswError). -/
inductive HnswError where
  | invalidParameters (reason : String)
  | duplicateNode (node : Nat)
  | graphInvariantViolation (message : String)
  | dataSource (e : DataSourceError)
deriving DecidableEq, Repr

/-- Reason string of attach_node's level bound check (graph.rs line 64);
the Rust message interpolates the values, the variant and branch are what
matter here. -/
def levelExceedsMsg : String := "level exceeds max_level"

/-- Reason string of attach_node's capacity check (graph.rs line 75). -/
def capacityMsg : String := "node is outside pre-allocated capacity"

/-- Reason string of insert_first's occupied-entry check (graph.rs line 88). -/
def hasEntryMsg : String := "graph already has an entry point"

/-- Reason string of plan_insertion's missing-entry check (graph.rs line 108). -/
def noEntryMsg : String := "cannot plan insertion without an entry point"

/-- Reason string of validate_distance (search.rs line 71). -/
def nonFiniteMsg : String := "non-finite distance returned"

/-- Reason string of validate_batch_distances (search.rs line 88). -/
def batchNonFiniteMsg : String := "non-finite distance returned in batch"

/-- Message of the staging layer-missing invariant error (insert.rs line 32). -/
def layerMissingMsg : String := "layer missing when staging insertion"

/-- Message of the staging node-missing invariant error (insert.rs line 44). -/
def stagingMissingMsg : String := "node missing while staging insertion"

/-- Message of commit's missing-new-node invariant error (graph.rs line 196). -/
def commitMissingMsg : String := "node missing during commit"

/-- Message of commit's missing-update-node invariant error (graph.rs line 209). -/
def updateMissingMsg : String := "node missing during neighbour update"

/-- Message of search's missing-node error during descent (search.rs line 31). -/
def descentMissingMsg : String := "node missing during descent"

/-- Message of search_layer's missing-node error (search.rs line 161). -/
def layerSearchMissingMsg : String := "node missing during layer search"

/-- Artefact message for fuel exhaustion of the modelled search loops; the Rust
loops always terminate, so no theorem depends on this branch. -/
def fuelMsg : String := "search loop fuel exhausted"

/-- Validates a single distance provided by the data source
(search.rs, validate_distance). -/
def validate_distance (src : DataSource) (query candidate : Nat) :
    Except HnswError ℚ :=
  match src.distance query candidate with
  | .error e => .error (.dataSource e)
  | .ok d =>
    if d.isFinite then .ok d.toRat
    else .error (.invalidParameters nonFiniteMsg)

/-- Validates a batch of distances provided by the data source
(search.rs, validate_batch_distances). -/
def validate_batch_distances (src : DataSource) (query : Nat)
    (candidates : List Nat) : Except HnswError (List ℚ) :=
  match src.batch_distances query candidates with
  | .error e => .error (.dataSource e)
  | .ok ds =>
    if ds.any (fun d => !d.isFinite) then .error (.invalidParameters batchNonFiniteMsg)
    else .ok (ds.map FVal.toRat)

/-- Topology parameters (hnsw/mod.rs, HnswParams).  The constructor's
positivity asserts appear as hypotheses of Reachable.init below. -/
structure HnswParams where
  max_level : Nat
  max_connections : Nat
  ef_construction : Nat
deriving DecidableEq, Repr

/-- Identifies a node alongside the highest layer it participates in
(types.rs, NodeContext). -/
structure NodeContext where
  node : Nat
  level : Nat
deriving DecidableEq, Repr

/-- Entry point for navigating the layered graph (types.rs, EntryPoint). -/
structure EntryPoint where
  node : Nat
  level : Nat
deriving DecidableEq, Repr

/-- Degree-budget context for one layer (types.rs, EdgeContext). -/
structure EdgeContext where
  level : Nat
  max_connections : Nat
deriving DecidableEq, Repr

/-- Builds the context for a specific level (types.rs, EdgeContext::for_level). -/
def EdgeContext.for_level (params : HnswParams) (level : Nat) : EdgeContext :=
  ⟨level, params.max_connections⟩

/-- Neighbour reference used during planning and search (types.rs, Neighbour);
the distance is a validated finite value. -/
structure Neighbour where
  id : Nat
  distance : ℚ
deriving DecidableEq, Repr

/-- Model of Vec sort by Neighbour distance keys; see the file comment on
sort stability. -/
def sortNeighbours (l : List Neighbour) : List Neighbour :=
  l.insertionSort (fun a b => a.distance ≤ b.distance)

/-- Planned neighbours for a layer (types.rs, LayerPlan). -/
structure LayerPlan where
  level : Nat
  neighbours : List Neighbour
deriving DecidableEq, Repr

/-- Complete insertion plan for a node (types.rs, InsertionPlan). -/
structure InsertionPlan where
  layers : List LayerPlan
deriving DecidableEq, Repr

/-- Filters the plan to layers within the provided level
(types.rs, InsertionPlan::take_for_level). -/
def InsertionPlan.take_for_level (plan : InsertionPlan) (level : Nat) :
    InsertionPlan :=
  ⟨plan.layers.filter (fun layer => decide (layer.level ≤ level))⟩

/-- Prepared adjacency updates for a node insertion
(types.rs, PreparedInsertion). -/
structure PreparedInsertion where
  node : NodeContext
  promote_entry : Bool
  new_node_neighbours : List (List Nat)
  updates : List (Nat × Nat × List Nat)
deriving DecidableEq, Repr

/-- Result of trimming a node's candidate list (types.rs, TrimResult;
node.rs TrimResultInternal carries the same data plus the EdgeContext). -/
structure TrimResult where
  node : Nat
  level : Nat
  neighbours : List Nat
deriving DecidableEq, Repr

/-- Work item for re-trimming an over-budget neighbour list (node.rs, TrimJob). -/
structure TrimJob where
  node : Nat
  ctx : EdgeContext
  candidates : List Nat
deriving DecidableEq, Repr

/-- Vec::swap of two indices; out-of-range indices leave the list unchanged
(both indices are always in range at the call site). -/
def listSwap (l : List α) (i j : Nat) : List α :=
  match l[i]?, l[j]? with
  | some a, some b => (l.set i b).set j a
  | _, _ => l

/-- Moves the newly inserted node to the front by swapping it with the current
first element (node.rs, TrimJob::prioritise; Vec::swap semantics). -/
def TrimJob.prioritise (job : TrimJob) (newNode : Nat) : TrimJob :=
  match job.candidates.findIdx? (fun candidate => candidate == newNode) with
  | none => job
  | some index => { job with candidates := listSwap job.candidates 0 index }

/-- Stored representation of a graph node (node.rs, Node): one neighbour-id
list per layer. -/
structure Node where
  neighbours : List (List Nat)
deriving DecidableEq, Repr

/-- Creates a node with level + 1 empty layers (node.rs, Node::new). -/
def Node.new (level : Nat) : Node :=
  ⟨List.replicate (level + 1) []⟩

/-- Neighbours of a layer, empty if the layer does not exist
(node.rs, Node::neighbours). -/
def Node.neighboursAt (nd : Node) (level : Nat) : List Nat :=
  nd.neighbours.getD level []

/-- Writes a layer's neighbour list, resizing with empty layers if needed
(node.rs, Node::neighbours_mut followed by assignment). -/
def Node.setNeighbours (nd : Node) (level : Nat) (ns : List Nat) : Node :=
  if nd.neighbours.length ≤ level then
    ⟨(nd.neighbours ++ List.replicate (level + 1 - nd.neighbours.length) []).set level ns⟩
  else
    ⟨nd.neighbours.set level ns⟩

/-- Writes the new node's per-layer lists in order (graph.rs lines 200-202,
the enumerate loop over prepared.new_node_neighbours). -/
def Node.writeAll (nd : Node) : Nat → List (List Nat) → Node
  | _, [] => nd
  | i, ns :: rest => (nd.setNeighbours i ns).writeAll (i + 1) rest

/-- Backing graph for the HNSW index (graph.rs, Graph). -/
structure Graph where
  params : HnswParams
  nodes : List (Option Node)
  entry : Option EntryPoint
deriving DecidableEq, Repr

/-- Creates a new graph with preallocated empty capacity (graph.rs, Graph::new). -/
def Graph.new (params : HnswParams) (capacity : Nat) : Graph :=
  ⟨params, List.replicate capacity none, none⟩

/-- Accesses a node (graph.rs, Graph::node). -/
def Graph.node (g : Graph) (n : Nat) : Option Node :=
  g.nodes.getD n none

/-- Occupies a slot (used by attach_node and the commit writes). -/
def Graph.setNode (g : Graph) (n : Nat) (nd : Node) : Graph :=
  { g with nodes := g.nodes.set n (some nd) }

/-- Neighbour list of node n at layer L, empty when the node is absent. -/
def Graph.listAt (g : Graph) (n L : Nat) : List Nat :=
  match g.node n with
  | none => []
  | some nd => nd.neighboursAt L

/-- Grows the slot table, never shrinking (graph.rs, Graph::ensure_capacity). -/
def Graph.ensureCapacity (g : Graph) (capacity : Nat) : Graph :=
  if g.nodes.length < capacity then
    { g with nodes := g.nodes ++ List.replicate (capacity - g.nodes.length) none }
  else g

/-- Allocates space for a node at the given level (graph.rs, Graph::attach_node). -/
def Graph.attach_node (g : Graph) (node level : Nat) :
    Graph × Except HnswError Unit :=
  if g.params.max_level < level then
    (g, .error (.invalidParameters levelExceedsMsg))
  else
    let g1 := g.ensureCapacity (node + 1)
    match g1.nodes[node]? with
    | none => (g1, .error (.invalidParameters capacityMsg))
    | some slot =>
      if slot.isSome then (g1, .error (.duplicateNode node))
      else (g1.setNode node (Node.new level), .ok ())

/-- Inserts the first node into an empty graph (graph.rs, Graph::insert_first). -/
def Graph.insert_first (g : Graph) (ctx : NodeContext) :
    Graph × Except HnswError Unit :=
  if g.entry.isSome then (g, .error (.invalidParameters hasEntryMsg))
  else
    match g.attach_node ctx.node ctx.level with
    | (g1, .error e) => (g1, .error e)
    | (g1, .ok _) => ({ g1 with entry := some ⟨ctx.node, ctx.level⟩ }, .ok ())

/-- Ids of the occupied slots other than the inserting node, in slot order
(graph.rs lines 112-117, the candidate scan of plan_insertion). -/
def Graph.planCandidates (g : Graph) (node : Nat) : List Nat :=
  (List.range g.nodes.length).filter
    (fun i => (g.nodes.getD i none).isSome && i != node)

/-- Plans neighbours for the new node by scanning existing vertices
(graph.rs, Graph::plan_insertion). -/
def Graph.plan_insertion (g : Graph) (ctx : NodeContext) (params : HnswParams)
    (src : DataSource) : Except HnswError InsertionPlan :=
  if g.entry.isNone then .error (.invalidParameters noEntryMsg)
  else
    let candidate_ids := g.planCandidates ctx.node
    if candidate_ids.isEmpty then .ok ⟨[]⟩
    else
      match validate_batch_distances src ctx.node candidate_ids with
      | .error e => .error e
      | .ok distances =>
        let scored := (candidate_ids.zip distances).map
          (fun p => Neighbour.mk p.1 p.2)
        let sorted := sortNeighbours scored
        let limit := params.max_connections
        .ok ⟨(List.range (ctx.level + 1)).map
          (fun level => LayerPlan.mk level (sortNeighbours (sorted.take limit)))⟩

/-- Local state threaded through apply_insertion's staging loop: the new
node's per-layer lists, the staged candidate map in first-touch order
(node.rs, CandidateMap), and the scheduled trim jobs. -/
structure ApplyState where
  new_node_neighbours : List (List Nat)
  staged : List ((Nat × Nat) × List Nat)
  trim_jobs : List TrimJob
deriving DecidableEq, Repr

/-- Looks up a staged candidate list by key (node.rs, CandidateMap::entry_mut
lookup half). -/
def lookupStaged (staged : List ((Nat × Nat) × List Nat)) (key : Nat × Nat) :
    Option (List Nat) :=
  (staged.find? (fun e => e.1 == key)).map (fun e => e.2)

/-- Stores a staged candidate list, appending new keys at the back in
first-touch order (node.rs, CandidateMap::entry_mut insertion half). -/
def storeStaged (staged : List ((Nat × Nat) × List Nat)) (key : Nat × Nat)
    (v : List Nat) : List ((Nat × Nat) × List Nat) :=
  if staged.any (fun e => e.1 == key) then
    staged.map (fun e => if e.1 == key then (key, v) else e)
  else staged ++ [(key, v)]

/-- Processes one planned neighbour of one layer (insert.rs lines 26-65,
the body of the inner loop of apply_insertion). -/
def applyNeighbour (g : Graph) (x mc L : Nat) (st : ApplyState)
    (nb : Neighbour) : Except HnswError ApplyState :=
  if nb.id = x then .ok st
  else
    match st.new_node_neighbours[L]? with
    | none => .error (.graphInvariantViolation layerMissingMsg)
    | some layer_vec =>
      let nnn1 := st.new_node_neighbours.set L
        (if nb.id ∈ layer_vec then layer_vec else layer_vec ++ [nb.id])
      let key : Nat × Nat := (nb.id, L)
      let cands0 := (lookupStaged st.staged key).getD []
      match (if cands0.isEmpty then
               match g.node nb.id with
               | none => Except.error (HnswError.graphInvariantViolation stagingMissingMsg)
               | some nd => Except.ok (cands0 ++ nd.neighboursAt L)
             else Except.ok cands0) with
      | .error e => .error e
      | .ok c1 =>
        let c2 := if x ∈ c1 then c1 else c1 ++ [x]
        let staged1 := storeStaged st.staged key c2
        let jobs1 :=
          if mc < c2.length then
            st.trim_jobs ++ [TrimJob.prioritise ⟨nb.id, ⟨L, mc⟩, c2⟩ x]
          else st.trim_jobs
        .ok ⟨nnn1, staged1, jobs1⟩

/-- Folds applyNeighbour over the (budget-truncated) neighbours of one layer. -/
def applyNeighbours (g : Graph) (x mc L : Nat) :
    List Neighbour → ApplyState → Except HnswError ApplyState
  | [], st => .ok st
  | nb :: rest, st =>
    match applyNeighbour g x mc L st nb with
    | .error e => .error e
    | .ok st1 => applyNeighbours g x mc L rest st1

/-- Folds the staging loop over the plan's layers, skipping layers above the
new node's level (insert.rs lines 21-66). -/
def applyLayers (g : Graph) (x xlevel mc : Nat) :
    List LayerPlan → ApplyState → Except HnswError ApplyState
  | [], st => .ok st
  | layer :: rest, st =>
    if xlevel < layer.level then applyLayers g x xlevel mc rest st
    else
      match applyNeighbours g x mc layer.level (layer.neighbours.take mc) st with
      | .error e => .error e
      | .ok st1 => applyLayers g x xlevel mc rest st1

/-- Applies a planned insertion and schedules trimming jobs
(insert.rs, Graph::apply_insertion).  The only live-graph mutation is the new
node's own attachment. -/
def Graph.apply_insertion (g : Graph) (node : NodeContext) (params : HnswParams)
    (plan : InsertionPlan) :
    Graph × Except HnswError (PreparedInsertion × List TrimJob) :=
  match g.attach_node node.node node.level with
  | (g1, .error e) => (g1, .error e)
  | (g1, .ok _) =>
    match applyLayers g1 node.node node.level params.max_connections plan.layers
        ⟨List.replicate (node.level + 1) [], [], []⟩ with
    | .error e => (g1, .error e)
    | .ok st =>
      let promote :=
        match g1.entry with
        | none => true
        | some e => e.level < node.level
      (g1, .ok (⟨node, promote, st.new_node_neighbours,
        st.staged.map (fun e => (e.1.1, e.1.2, e.2))⟩, st.trim_jobs))

/-- Evaluates one trim job (graph.rs lines 157-173, the closure mapped over
trim jobs inside insert_node, composed with TrimResultInternal::into_public). -/
def evalTrimJob (src : DataSource) (newNode : Nat) (job0 : TrimJob) :
    Except HnswError TrimResult :=
  let job := job0.prioritise newNode
  match validate_batch_distances src job.node job.candidates with
  | .error e => .error e
  | .ok distances =>
    let combined := job.candidates.zip distances
    let sorted := combined.insertionSort (fun a b => a.2 ≤ b.2)
    let trimmed := sorted.take job.ctx.max_connections
    .ok ⟨job.node, job.ctx.level, trimmed.map Prod.fst⟩

/-- Builds the trim lookup map keyed by node and level (graph.rs lines
189-192; HashMap::insert means later results for a key win). -/
def trimMapOf (trims : List TrimResult) : List ((Nat × Nat) × List Nat) :=
  trims.foldl (fun m t => storeStaged m (t.node, t.level) t.neighbours) []

/-- Removes a key from the trim map, returning the stored value if present
(graph.rs line 205, trim_map.remove). -/
def removeStaged (staged : List ((Nat × Nat) × List Nat)) (key : Nat × Nat) :
    Option (List Nat) × List ((Nat × Nat) × List Nat) :=
  (lookupStaged staged key, staged.filter (fun e => !(e.1 == key)))

/-- Applies the staged updates for existing nodes in order (graph.rs lines
204-212), threading the graph and the trim map. -/
def commitUpdates : List (Nat × Nat × List Nat) → Graph →
    List ((Nat × Nat) × List Nat) → Graph × Except HnswError Unit
  | [], g, _ => (g, .ok ())
  | (n, level, candidates) :: rest, g, tm =>
    match removeStaged tm (n, level) with
    | (found, tm1) =>
      let ns := found.getD candidates
      match g.node n with
      | none => (g, .error (.graphInvariantViolation updateMissingMsg))
      | some nd => commitUpdates rest (g.setNode n (nd.setNeighbours level ns)) tm1

/-- Commits prepared updates into the graph (graph.rs, Graph::commit_insertion). -/
def Graph.commit_insertion (g : Graph) (prepared : PreparedInsertion)
    (trims : List TrimResult) : Graph × Except HnswError Unit :=
  let trim_map := trimMapOf trims
  match g.node prepared.node.node with
  | none => (g, .error (.graphInvariantViolation commitMissingMsg))
  | some slot =>
    let g1 := g.setNode prepared.node.node
      (slot.writeAll 0 prepared.new_node_neighbours)
    match commitUpdates prepared.updates g1 trim_map with
    | (g2, .error e) => (g2, .error e)
    | (g2, .ok _) =>
      if prepared.promote_entry then
        ({ g2 with entry := some ⟨prepared.node.node, prepared.node.level⟩ }, .ok ())
      else (g2, .ok ())

/-- Plans, applies, trims and commits a non-bootstrap insertion
(graph.rs, Graph::insert_node). -/
def Graph.insert_node (g : Graph) (ctx : NodeContext) (params : HnswParams)
    (src : DataSource) : Graph × Except HnswError Unit :=
  match g.plan_insertion ctx params src with
  | .error e => (g, .error e)
  | .ok plan0 =>
    let plan := plan0.take_for_level ctx.level
    match g.apply_insertion ctx params plan with
    | (g1, .error e) => (g1, .error e)
    | (g1, .ok (prepared, jobs)) =>
      match jobs.mapM (evalTrimJob src ctx.node) with
      | .error e => (g1, .error e)
      | .ok trims => g1.commit_insertion prepared trims

/-- Level sampler loop body (mod.rs lines 149-153): repeat while the level is
below the cap and the coin comes up true.  The fuel argument is the remaining
distance to the cap, so the cap is never exceeded. -/
def sampleLevelGo (flips : Nat → Bool) : Nat → Nat → Nat
  | 0, level => level
  | fuel + 1, level => if flips level then sampleLevelGo flips fuel (level + 1) else level

/-- Samples a level from a stream of fair-coin flips, capped at max_level
(mod.rs, CpuHnsw::sample_level). -/
def sample_level (maxLevel : Nat) (flips : Nat → Bool) : Nat :=
  sampleLevelGo flips maxLevel 0

/-- CPU-backed HNSW index (mod.rs, CpuHnsw): configuration, the graph behind
the write lock, and the node counter.  Lock acquisition is identity in this
sequential model; the RNG is replaced by the per-call flip stream. -/
structure CpuHnsw where
  params : HnswParams
  graph : Graph
  len : Nat
deriving DecidableEq, Repr

/-- Creates a new index (mod.rs, CpuHnsw::new). -/
def CpuHnsw.new (params : HnswParams) (capacity : Nat) : CpuHnsw :=
  ⟨params, Graph.new params capacity, 0⟩

/-- Inserts a node (mod.rs, CpuHnsw::insert).  The empty-index bootstrap
re-checks the entry point under the write lock; in this sequential model the
re-check always agrees with the first read, and the race-fallback branch is
kept for fidelity. -/
def CpuHnsw.insert (h : CpuHnsw) (node : Nat) (flips : Nat → Bool)
    (src : DataSource) : CpuHnsw × Except HnswError Unit :=
  let ctx : NodeContext := ⟨node, sample_level h.params.max_level flips⟩
  if h.graph.entry.isSome then
    match h.graph.insert_node ctx h.params src with
    | (g1, .error e) => ({ h with graph := g1 }, .error e)
    | (g1, .ok _) => ({ h with graph := g1, len := h.len + 1 }, .ok ())
  else
    match validate_distance src node node with
    | .error e => (h, .error e)
    | .ok _ =>
      if h.graph.entry.isSome then
        match h.graph.insert_node ctx h.params src with
        | (g1, .error e) => ({ h with graph := g1 }, .error e)
        | (g1, .ok _) => ({ h with graph := g1, len := h.len + 1 }, .ok ())
      else
        match h.graph.insert_first ctx with
        | (g1, .error e) => ({ h with graph := g1 }, .error e)
        | (g1, .ok _) => ({ h with graph := g1, len := 1 }, .ok ())

/-- Greedy descent through the upper layers (search.rs lines 27-50): at each
layer move to the running-best strictly improving neighbour, dropping a layer
when none improves.  Fuel models the loop; see the file comment. -/
def searchDescent (g : Graph) (src : DataSource) (query : Nat) :
    Nat → Nat → Nat → ℚ → Except HnswError (Nat × ℚ)
  | _, 0, current, current_dist => .ok (current, current_dist)
  | 0, _ + 1, _, _ => .error (.graphInvariantViolation fuelMsg)
  | fuel + 1, level + 1, current, current_dist =>
    match g.node current with
    | none => .error (.graphInvariantViolation descentMissingMsg)
    | some nd =>
      let nbs := nd.neighboursAt (level + 1)
      if nbs.isEmpty then searchDescent g src query fuel level current current_dist
      else
        match validate_batch_distances src query nbs with
        | .error e => .error e
        | .ok ds =>
          let folded := (nbs.zip ds).foldl
            (fun (acc : Bool × Nat × ℚ) p =>
              if p.2 < acc.2.2 then (true, p.1, p.2) else acc)
            (false, current, current_dist)
          if folded.1 then
            searchDescent g src query fuel (level + 1) folded.2.1 folded.2.2
          else searchDescent g src query fuel level current current_dist

/-- Ordered insert into the ascending frontier list (model of the min-heap
candidates of search_layer; ties keep earlier pushes first). -/
def insertAscending (x : Neighbour) : List Neighbour → List Neighbour
  | [] => [x]
  | y :: ys => if x.distance < y.distance then x :: y :: ys else y :: insertAscending x ys

/-- Ordered insert into the descending result list (model of the max-heap
best of search_layer; the head is the furthest retained result). -/
def insertDescending (x : Neighbour) : List Neighbour → List Neighbour
  | [] => [x]
  | y :: ys => if y.distance < x.distance then x :: y :: ys else y :: insertDescending x ys

/-- One expansion step's fold over freshly visited neighbours
(search.rs lines 175-194). -/
def expandStep (ef : Nat) (acc : List Neighbour × List Neighbour)
    (p : Nat × ℚ) : List Neighbour × List Neighbour :=
  let should_add :=
    if acc.2.length < ef then true
    else
      match acc.2 with
      | f :: _ => decide (p.2 < f.distance)
      | [] => false
  if should_add then
    let b1 := insertDescending ⟨p.1, p.2⟩ acc.2
    let b2 := if ef < b1.length then b1.tail else b1
    (insertAscending ⟨p.1, p.2⟩ acc.1, b2)
  else acc

/-- Best-first expansion loop of search_layer (search.rs lines 147-195),
with the frontier ascending, the visited set as a list, and the result set
descending.  Fuel models the loop; see the file comment. -/
def searchLayerLoop (g : Graph) (src : DataSource) (query level ef : Nat) :
    Nat → List Neighbour → List Nat → List Neighbour →
    Except HnswError (List Neighbour)
  | _, [], _, best => .ok (sortNeighbours best)
  | 0, _ :: _, _, _ => .error (.graphInvariantViolation fuelMsg)
  | fuel + 1, c :: rest, visited, best =>
    if decide (ef ≤ best.length) &&
        (match best.head? with
         | some furthest => decide (furthest.distance < c.distance)
         | none => false) then
      .ok (sortNeighbours best)
    else if decide (ef ≤ best.length) && best.head?.isNone then
      searchLayerLoop g src query level ef fuel rest visited best
    else
      match g.node c.id with
      | none => .error (.graphInvariantViolation layerSearchMissingMsg)
      | some nd =>
        let folded := (nd.neighboursAt level).foldl
          (fun (acc : List Nat × List Nat) id =>
            if id ∈ acc.2 then acc else (acc.1 ++ [id], acc.2 ++ [id]))
          ([], visited)
        if folded.1.isEmpty then
          searchLayerLoop g src query level ef fuel rest folded.2 best
        else
          match validate_batch_distances src query folded.1 with
          | .error e => .error e
          | .ok ds =>
            let stepped := (folded.1.zip ds).foldl (expandStep ef) (rest, best)
            searchLayerLoop g src query level ef fuel stepped.1 folded.2 stepped.2

/-- Searches a single layer using best-first exploration
(search.rs, Graph::search_layer). -/
def Graph.search_layer (g : Graph) (src : DataSource)
    (query entryNode level ef fuel : Nat) : Except HnswError (List Neighbour) :=
  match validate_distance src query entryNode with
  | .error e => .error e
  | .ok entry_dist =>
    searchLayerLoop g src query level ef fuel [⟨entryNode, entry_dist⟩]
      [entryNode] [⟨entryNode, entry_dist⟩]

/-- Performs a full HNSW search across all layers (search.rs, search). -/
def hnswSearch (g : Graph) (query k : Nat) (params : HnswParams)
    (src : DataSource) (fuel : Nat) : Except HnswError (List Neighbour) :=
  match g.entry with
  | none => .ok []
  | some entry =>
    match validate_distance src query entry.node with
    | .error e => .error e
    | .ok current_dist =>
      match searchDescent g src query fuel entry.level entry.node current_dist with
      | .error e => .error e
      | .ok found =>
        match g.search_layer src query found.1 0 params.ef_construction fuel with
        | .error e => .error e
        | .ok results => .ok (results.take k)

/-- Searches for the k nearest neighbours (mod.rs, CpuHnsw::search);
read-only, so no state is returned. -/
def CpuHnsw.search (h : CpuHnsw) (query k : Nat) (src : DataSource)
    (fuel : Nat) : Except HnswError (List Neighbour) :=
  hnswSearch h.graph query k h.params src fuel

/-- States reachable through the public construction and insertion API.  The
positivity hypotheses of init mirror the asserts of HnswParams::new
(mod.rs lines 39-41). -/
inductive Reachable : CpuHnsw → Prop
  | init (params : HnswParams) (capacity : Nat)
      (hml : 0 < params.max_level) (hmc : 0 < params.max_connections)
      (hef : 0 < params.ef_construction) :
      Reachable (CpuHnsw.new params capacity)
  | step (h h1 : CpuHnsw) (node : Nat) (flips : Nat → Bool) (src : DataSource)
      (hr : Reachable h) (hok : h.insert node flips src = (h1, .ok ())) :
      Reachable h1

/-- Absolute difference of two node indices, for the concrete line oracles. -/
def absDiff (a b : Nat) : Nat := max a b - min a b

/-- Concrete 1-D line oracle: the distance between two ids is their absolute
difference; batch_distances is the default per-candidate implementation. -/
def lineSrc : DataSource :=
  ⟨fun q c => .ok (.finite ((absDiff q c : Nat) : ℚ)),
   fun q cs => defaultBatch (fun q c => .ok (.finite ((absDiff q c : Nat) : ℚ))) q cs⟩

/-- Concrete oracle failing exactly on the query-candidate pair (1, 2) and
behaving as lineSrc elsewhere; used to make a trim-job evaluation fail after
planning succeeded. -/
def trimFailDist (q c : Nat) : Except DataSourceError FVal :=
  if q == 1 && c == 2 then .error (.operation "boom")
  else .ok (.finite ((absDiff q c : Nat) : ℚ))

/-- DataSource wrapper of trimFailDist with the default batch implementation. -/
def trimFailSrc : DataSource :=
  ⟨trimFailDist, fun q cs => defaultBatch trimFailDist q cs⟩

/-- Concrete oracle returning a NaN distance for every query. -/
def nanSrc : DataSource :=
  ⟨fun _ _ => .ok .nan, fun q cs => defaultBatch (fun _ _ => .ok .nan) q cs⟩

/-- Coin stream that is always false: sampled level 0. -/
def flipsF : Nat → Bool := fun _ => false

/-- Coin stream that is true exactly once: sampled level 1 with cap ≥ 1. -/
def flipsO : Nat → Bool := fun n => n == 0

/-- Concrete parameters used by the witnesses: cap 1, degree budget 1,
construction width 1. -/
def P1 : HnswParams := ⟨1, 1, 1⟩

/-- Neighbour-list invariants of the graph: every list is within the degree
budget, duplicate-free, free of self-loops, and refers only to attached
nodes. -/
def GraphInv (g : Graph) (mc : Nat) : Prop :=
  ∀ n L, (g.listAt n L).length ≤ mc ∧ (g.listAt n L).Nodup ∧
    n ∉ g.listAt n L ∧ ∀ id ∈ g.listAt n L, (g.node id).isSome = true

/-- Invariant of a reachable index state: the graph invariants for the
configured budget, agreement of the two parameter copies, and emptiness of
the node table while no entry point exists. -/
def CpuInv (h : CpuHnsw) : Prop :=
  GraphInv h.graph h.params.max_connections ∧
  h.graph.params = h.params ∧
  (h.graph.entry = none → ∀ n, h.graph.node n = none)

/-- Properties maintained by the staging loop of apply_insertion, stated
against the post-attach graph g, the inserting node x and the degree budget
mc: staged candidate lists are exactly the target's current list with x
appended, staged keys are distinct, every over-budget staged list has a
matching trim job, every trim job carries x at the front of a permutation of
x consed onto the target's current list, and the new node's per-layer lists
are duplicate-free, self-free and refer to attached nodes. -/
def StagedInv (g : Graph) (x mc : Nat) (st : ApplyState) : Prop :=
  (∀ p ∈ st.staged, p.1.1 ≠ x ∧ (g.node p.1.1).isSome = true ∧
    p.2 = g.listAt p.1.1 p.1.2 ++ [x]) ∧
  (st.staged.map Prod.fst).Nodup ∧
  (∀ p ∈ st.staged, mc < p.2.length →
    ∃ job ∈ st.trim_jobs, job.node = p.1.1 ∧ job.ctx.level = p.1.2) ∧
  (∀ job ∈ st.trim_jobs, job.node ≠ x ∧ (g.node job.node).isSome = true ∧
    job.ctx.max_connections = mc ∧ job.candidates.head? = some x ∧
    job.candidates.Perm (x :: g.listAt job.node job.ctx.level)) ∧
  (∀ lst ∈ st.new_node_neighbours, lst.Nodup ∧ x ∉ lst ∧
    ∀ id ∈ lst, (g.node id).isSome = true)

/-- Concrete two-insert run used by several witnesses: node 0 at sampled
level 0, then node 1 at sampled level 1, on the line oracle. -/
def twoRun : CpuHnsw :=
  (((CpuHnsw.new P1 0).insert 0 flipsF lineSrc).1.insert 1 flipsO lineSrc).1

/-- Concrete two-insert run on the failing oracle.  The pair (1, 2) is never
queried during these two inserts, so both succeed; the third insert's trim
evaluation queries it and fails. -/
def failRun : CpuHnsw :=
  (((CpuHnsw.new P1 0).insert 0 flipsF trimFailSrc).1.insert 1
    flipsF trimFailSrc).1

/-! ### Basic state lemmas -/

theorem Graph.node_def (g : Graph) (n : Nat) : g.node n = (g.nodes[n]?).getD none :=
  List.getD_eq_getElem?_getD g.nodes n none

theorem ensureCapacity_entry (g : Graph) (c : Nat) :
    (g.ensureCapacity c).entry = g.entry := by
  unfold Graph.ensureCapacity; split <;> rfl

theorem ensureCapacity_params (g : Graph) (c : Nat) :
    (g.ensureCapacity c).params = g.params := by
  unfold Graph.ensureCapacity; split <;> rfl

theorem ensureCapacity_node (g : Graph) (c n : Nat) :
    (g.ensureCapacity c).node n = g.node n := by
  unfold Graph.ensureCapacity
  split
  · rename_i hlen
    rw [Graph.node_def, Graph.node_def]
    simp only [List.getElem?_append]
    split
    · rfl
    · rename_i hge
      rw [List.getElem?_replicate]
      have hnone : g.nodes[n]? = none := by
        rw [List.getElem?_eq_none_iff]; omega
      rw [hnone]
      split <;> rfl
  · rfl

theorem ensureCapacity_get (g : Graph) {c n : Nat} (hc : n < c) :
    (g.ensureCapacity c).nodes[n]? = some (g.node n) := by
  unfold Graph.ensureCapacity
  split
  · rename_i hlen
    simp only [List.getElem?_append]
    split
    · rename_i hlt
      rw [List.getElem?_eq_getElem hlt, Graph.node_def,
        List.getElem?_eq_getElem hlt]
      rfl
    · rename_i hge
      rw [List.getElem?_replicate]
      have hnone : g.nodes[n]? = none := by
        rw [List.getElem?_eq_none_iff]; omega
      rw [Graph.node_def, hnone]
      have : n - g.nodes.length < c - g.nodes.length := by omega
      simp [this]
  · rename_i hge
    have hlt : n < g.nodes.length := by omega
    rw [List.getElem?_eq_getElem hlt, Graph.node_def, List.getElem?_eq_getElem hlt]
    rfl

theorem setNode_entry (g : Graph) (n : Nat) (nd : Node) :
    (g.setNode n nd).entry = g.entry := rfl

theorem setNode_params (g : Graph) (n : Nat) (nd : Node) :
    (g.setNode n nd).params = g.params := rfl

theorem setNode_node_self (g : Graph) {n : Nat} (nd : Node)
    (h : n < g.nodes.length) : (g.setNode n nd).node n = some nd := by
  rw [Graph.node_def]
  show ((g.nodes.set n (some nd))[n]?).getD none = some nd
  rw [List.getElem?_set_self h]
  rfl

theorem setNode_node_ne (g : Graph) {n m : Nat} (nd : Node) (h : m ≠ n) :
    (g.setNode n nd).node m = g.node m := by
  rw [Graph.node_def, Graph.node_def]
  show ((g.nodes.set n (some nd))[m]?).getD none = _
  rw [List.getElem?_set_ne (fun he => h he.symm)]

theorem setNeighbours_at (nd : Node) (L : Nat) (ns : List Nat) (M : Nat) :
    (nd.setNeighbours L ns).neighboursAt M = if M = L then ns else nd.neighboursAt M := by
  unfold Node.setNeighbours Node.neighboursAt
  split
  · rename_i hlen
    simp only [List.getD_eq_getElem?_getD, List.getElem?_set]
    split
    · rename_i hLM
      subst hLM
      have hcond : L < nd.neighbours.length + (L + 1 - nd.neighbours.length) := by omega
      simp [hcond]
    · rename_i hLM
      have hML : ¬ (M = L) := fun he => hLM he.symm
      simp only [hML, if_false]
      rw [List.getElem?_append]
      split
      · rfl
      · rename_i hge
        rw [List.getElem?_replicate]
        have hnone : nd.neighbours[M]? = none := by
          rw [List.getElem?_eq_none_iff]; omega
        rw [hnone]
        split <;> rfl
  · rename_i hlen
    simp only [List.getD_eq_getElem?_getD, List.getElem?_set]
    split
    · rename_i hLM
      subst hLM
      have : L < nd.neighbours.length := by omega
      simp [this]
    · rename_i hLM
      have hML : ¬ (M = L) := fun he => hLM he.symm
      simp [hML]

theorem neighboursAt_new (level M : Nat) : (Node.new level).neighboursAt M = [] := by
  unfold Node.new Node.neighboursAt
  rw [List.getD_eq_getElem?_getD, List.getElem?_replicate]
  split <;> rfl

theorem ensureCapacity_length (g : Graph) (c : Nat) :
    c ≤ (g.ensureCapacity c).nodes.length := by
  unfold Graph.ensureCapacity
  split
  · simp only [List.length_append, List.length_replicate]; omega
  · omega

theorem attach_node_ok {g g1 : Graph} {x lvl : Nat}
    (h : g.attach_node x lvl = (g1, .ok ())) :
    g.node x = none ∧ g1.node x = some (Node.new lvl) ∧
    (∀ n, n ≠ x → g1.node n = g.node n) ∧
    g1.entry = g.entry ∧ g1.params = g.params ∧ lvl ≤ g.params.max_level := by
  simp only [Graph.attach_node] at h
  split at h
  · simp [Prod.ext_iff] at h
  · rename_i hlvl
    rw [ensureCapacity_get g (Nat.lt_succ_self x)] at h
    split at h
    · rename_i hmatch; exact absurd hmatch (by simp)
    · rename_i slot hslot
      injection hslot with hslot
      subst hslot
      split at h
      · simp [Prod.ext_iff] at h
      · rename_i hslotnone
        have hnone : g.node x = none := Option.not_isSome_iff_eq_none.mp hslotnone
        have hg1 : (g.ensureCapacity (x + 1)).setNode x (Node.new lvl) = g1 := by
          have := congrArg Prod.fst h; simpa using this
        refine ⟨hnone, ?_, ?_, ?_, ?_, by omega⟩
        · rw [← hg1]
          exact setNode_node_self _ (Node.new lvl)
            (Nat.lt_of_lt_of_le (Nat.lt_succ_self x) (ensureCapacity_length g (x + 1)))
        · intro n hn
          rw [← hg1, setNode_node_ne _ _ hn, ensureCapacity_node]
        · rw [← hg1, setNode_entry, ensureCapacity_entry]
        · rw [← hg1, setNode_params, ensureCapacity_params]

theorem attach_node_error {g g1 : Graph} {x lvl : Nat} {e : HnswError}
    (h : g.attach_node x lvl = (g1, .error e)) :
    (∀ n, g1.node n = g.node n) ∧ g1.entry = g.entry ∧ g1.params = g.params ∧
    (e = .duplicateNode x ∨ e = .invalidParameters levelExceedsMsg) := by
  simp only [Graph.attach_node] at h
  split at h
  · obtain ⟨h1, h2⟩ := Prod.mk.injEq .. ▸ h
    subst h1
    refine ⟨fun n => rfl, rfl, rfl, .inr ?_⟩
    injection h2 with h2; exact h2.symm
  · rename_i hlvl
    rw [ensureCapacity_get g (Nat.lt_succ_self x)] at h
    split at h
    · rename_i hmatch; simp at hmatch
    · rename_i slot hsome
      split at h
      · obtain ⟨h1, h2⟩ := Prod.mk.injEq .. ▸ h
        subst h1
        refine ⟨fun n => ensureCapacity_node g (x + 1) n, ensureCapacity_entry g _,
          ensureCapacity_params g _, .inl ?_⟩
        injection h2 with h2; exact h2.symm
      · simp [Prod.ext_iff] at h

theorem insert_first_ok {g g1 : Graph} {ctx : NodeContext}
    (h : g.insert_first ctx = (g1, .ok ())) :
    g.entry = none ∧ g.node ctx.node = none ∧
    g1.node ctx.node = some (Node.new ctx.level) ∧
    (∀ n, n ≠ ctx.node → g1.node n = g.node n) ∧
    g1.entry = some ⟨ctx.node, ctx.level⟩ ∧ g1.params = g.params := by
  simp only [Graph.insert_first] at h
  split at h
  · simp [Prod.ext_iff] at h
  · rename_i hentry
    split at h
    · simp [Prod.ext_iff] at h
    · rename_i ga r hattach
      obtain ⟨h1, _⟩ := Prod.mk.injEq .. ▸ h
      obtain ⟨hxnone, hxnew, hother, hent, hpar, _⟩ := attach_node_ok hattach
      subst h1
      exact ⟨Option.not_isSome_iff_eq_none.mp (by simpa using hentry), hxnone,
        hxnew, hother, rfl, hpar⟩

theorem commitUpdates_entry (updates : List (Nat × Nat × List Nat)) (g : Graph)
    (tm : List ((Nat × Nat) × List Nat)) :
    (commitUpdates updates g tm).1.entry = g.entry := by
  induction updates generalizing g tm with
  | nil => rfl
  | cons u rest ih =>
    obtain ⟨n, level, candidates⟩ := u
    unfold commitUpdates
    cases hn : g.node n with
    | none => simp
    | some nd => simpa using ih _ _

theorem commitUpdates_params (updates : List (Nat × Nat × List Nat)) (g : Graph)
    (tm : List ((Nat × Nat) × List Nat)) :
    (commitUpdates updates g tm).1.params = g.params := by
  induction updates generalizing g tm with
  | nil => rfl
  | cons u rest ih =>
    obtain ⟨n, level, candidates⟩ := u
    unfold commitUpdates
    cases hn : g.node n with
    | none => simp
    | some nd => simpa using ih _ _

theorem commit_insertion_ok_entry {g g2 : Graph} {prepared : PreparedInsertion}
    {trims : List TrimResult} (h : g.commit_insertion prepared trims = (g2, .ok ())) :
    g2.entry = if prepared.promote_entry then
      some ⟨prepared.node.node, prepared.node.level⟩ else g.entry := by
  simp only [Graph.commit_insertion] at h
  split at h
  · simp [Prod.ext_iff] at h
  · rename_i slot hslot
    split at h
    · simp [Prod.ext_iff] at h
    · rename_i gc u hupd
      split at h
      · rename_i hpr
        obtain ⟨h1, _⟩ := Prod.mk.injEq .. ▸ h
        rw [← h1]
        simp [hpr]
      · rename_i hpr
        obtain ⟨h1, _⟩ := Prod.mk.injEq .. ▸ h
        rw [← h1]
        simp only [Bool.not_eq_true] at hpr
        simp only [hpr, Bool.false_eq_true, if_false]
        have hent := congrArg (fun p => p.1.entry) hupd
        simp only at hent
        rw [commitUpdates_entry] at hent
        rw [← hent, setNode_entry]

theorem apply_insertion_ok {g g1 : Graph} {node : NodeContext}
    {params : HnswParams} {plan : InsertionPlan} {prep : PreparedInsertion}
    {jobs : List TrimJob}
    (h : g.apply_insertion node params plan = (g1, .ok (prep, jobs))) :
    g.attach_node node.node node.level = (g1, .ok ()) ∧
    ∃ st, applyLayers g1 node.node node.level params.max_connections plan.layers
        ⟨List.replicate (node.level + 1) [], [], []⟩ = .ok st ∧
      prep = ⟨node,
        (match g.entry with
         | none => true
         | some e => decide (e.level < node.level)),
        st.new_node_neighbours, st.staged.map (fun e => (e.1.1, e.1.2, e.2))⟩ ∧
      jobs = st.trim_jobs := by
  simp only [Graph.apply_insertion] at h
  split at h
  · simp [Prod.ext_iff] at h
  · rename_i ga u hattach
    split at h
    · simp [Prod.ext_iff] at h
    · rename_i st hst
      obtain ⟨h1, h2⟩ := Prod.mk.injEq .. ▸ h
      subst h1
      injection h2 with h2
      obtain ⟨hprep, hjobs⟩ := Prod.mk.injEq .. ▸ h2
      obtain ⟨-, -, -, hent, -, -⟩ := attach_node_ok hattach
      cases u
      refine ⟨hattach, st, hst, ?_, hjobs.symm⟩
      rw [← hprep, hent]

theorem insert_node_ok {g g2 : Graph} {ctx : NodeContext} {params : HnswParams}
    {src : DataSource} (h : g.insert_node ctx params src = (g2, .ok ())) :
    ∃ plan0 g1 prep jobs trims,
      g.plan_insertion ctx params src = .ok plan0 ∧
      g.apply_insertion ctx params (plan0.take_for_level ctx.level) =
        (g1, .ok (prep, jobs)) ∧
      jobs.mapM (evalTrimJob src ctx.node) = .ok trims ∧
      g1.commit_insertion prep trims = (g2, .ok ()) := by
  simp only [Graph.insert_node] at h
  split at h
  · simp [Prod.ext_iff] at h
  · rename_i plan0 hplan
    split at h
    · simp [Prod.ext_iff] at h
    · rename_i g1 prepared jobs happly
      split at h
      · simp [Prod.ext_iff] at h
      · rename_i trims htrims
        exact ⟨plan0, g1, prepared, jobs, trims, hplan, happly, htrims, h⟩

theorem sampleLevelGo_le (flips : Nat → Bool) (fuel level : Nat) :
    sampleLevelGo flips fuel level ≤ fuel + level := by
  induction fuel generalizing level with
  | zero => simp [sampleLevelGo]
  | succ n ih =>
    unfold sampleLevelGo
    split
    · have := ih (level + 1); omega
    · omega

theorem sample_level_le (m : Nat) (flips : Nat → Bool) :
    sample_level m flips ≤ m := by
  have := sampleLevelGo_le flips m 0
  simpa [sample_level] using this

/-! ### Claim C9: empty search -/

/-- C9: for every query id, every k, every oracle (and every loop fuel),
search on an index whose graph has no entry point returns Ok with an empty
neighbour list, never an error. -/
theorem claim_C9 (h : CpuHnsw) (query k : Nat) (src : DataSource) (fuel : Nat)
    (hempty : h.graph.entry = none) :
    h.search query k src fuel = .ok [] := by
  unfold CpuHnsw.search hnswSearch
  rw [hempty]

/-- Witness for C9 at a concrete freshly built index. -/
theorem claim_C9_witness : (CpuHnsw.new P1 0).search 5 3 lineSrc 7 = .ok [] :=
  claim_C9 (CpuHnsw.new P1 0) 5 3 lineSrc 7 rfl

/-! ### Claim C7: finite-distance enforcement -/

theorem validate_distance_nonfinite {src : DataSource} {q c : Nat} {v : FVal}
    (hd : src.distance q c = .ok v) (hnf : v.isFinite = false) :
    validate_distance src q c = .error (.invalidParameters nonFiniteMsg) := by
  simp [validate_distance, hd, hnf]

theorem validate_batch_nonfinite {src : DataSource} {q : Nat} {cs : List Nat}
    {vs : List FVal} (hb : src.batch_distances q cs = .ok vs)
    (hnf : ∃ v ∈ vs, v.isFinite = false) :
    validate_batch_distances src q cs =
      .error (.invalidParameters batchNonFiniteMsg) := by
  have hany : vs.any (fun d => !d.isFinite) = true := by
    rw [List.any_eq_true]
    obtain ⟨v, hv, hfin⟩ := hnf
    exact ⟨v, hv, by simp [hfin]⟩
  simp [validate_batch_distances, hb, hany]

/-- C7: whenever the oracle returns a NaN or infinite distance, the value is
rejected as InvalidParameters instead of being used.  The conjuncts cover the
two validators themselves, insertion planning, trim-job evaluation, search
descent (both the entry evaluation inside search and an arbitrary in-loop
batch evaluation), and the entry evaluation of layered best-first expansion. -/
theorem claim_C7 :
    (∀ (src : DataSource) (q c : Nat) (v : FVal),
      src.distance q c = .ok v → v.isFinite = false →
      validate_distance src q c = .error (.invalidParameters nonFiniteMsg))
  ∧ (∀ (src : DataSource) (q : Nat) (cs : List Nat) (vs : List FVal),
      src.batch_distances q cs = .ok vs → (∃ v ∈ vs, v.isFinite = false) →
      validate_batch_distances src q cs =
        .error (.invalidParameters batchNonFiniteMsg))
  ∧ (∀ (g : Graph) (ctx : NodeContext) (params : HnswParams) (src : DataSource)
      (vs : List FVal),
      g.entry.isSome = true →
      g.planCandidates ctx.node ≠ [] →
      src.batch_distances ctx.node (g.planCandidates ctx.node) = .ok vs →
      (∃ v ∈ vs, v.isFinite = false) →
      g.plan_insertion ctx params src =
        .error (.invalidParameters batchNonFiniteMsg))
  ∧ (∀ (src : DataSource) (x : Nat) (job : TrimJob) (vs : List FVal),
      src.batch_distances (job.prioritise x).node (job.prioritise x).candidates
        = .ok vs →
      (∃ v ∈ vs, v.isFinite = false) →
      evalTrimJob src x job = .error (.invalidParameters batchNonFiniteMsg))
  ∧ (∀ (g : Graph) (query k : Nat) (params : HnswParams) (src : DataSource)
      (fuel : Nat) (e : EntryPoint) (v : FVal),
      g.entry = some e → src.distance query e.node = .ok v →
      v.isFinite = false →
      hnswSearch g query k params src fuel =
        .error (.invalidParameters nonFiniteMsg))
  ∧ (∀ (g : Graph) (src : DataSource) (query fuel level current : Nat)
      (cd : ℚ) (nd : Node) (vs : List FVal),
      g.node current = some nd →
      (nd.neighboursAt (level + 1)).isEmpty = false →
      src.batch_distances query (nd.neighboursAt (level + 1)) = .ok vs →
      (∃ v ∈ vs, v.isFinite = false) →
      searchDescent g src query (fuel + 1) (level + 1) current cd =
        .error (.invalidParameters batchNonFiniteMsg))
  ∧ (∀ (g : Graph) (src : DataSource) (query en level ef fuel : Nat) (v : FVal),
      src.distance query en = .ok v → v.isFinite = false →
      g.search_layer src query en level ef fuel =
        .error (.invalidParameters nonFiniteMsg)) := by
  refine ⟨?_, ?_, ?_, ?_, ?_, ?_, ?_⟩
  · intro src q c v hd hnf
    exact validate_distance_nonfinite hd hnf
  · intro src q cs vs hb hnf
    exact validate_batch_nonfinite hb hnf
  · intro g ctx params src vs hent hne hb hnf
    obtain ⟨e, hE⟩ := Option.isSome_iff_exists.mp hent
    have hemp : (g.planCandidates ctx.node).isEmpty = false := by
      cases hpc : g.planCandidates ctx.node with
      | nil => exact absurd hpc hne
      | cons a l => rfl
    simp only [Graph.plan_insertion, hE, Option.isNone_some, Bool.false_eq_true,
      if_false, hemp, validate_batch_nonfinite hb hnf]
  · intro src x job vs hb hnf
    simp only [evalTrimJob, validate_batch_nonfinite hb hnf]
  · intro g query k params src fuel e v hE hd hnf
    simp only [hnswSearch, hE, validate_distance_nonfinite hd hnf]
  · intro g src query fuel level current cd nd vs hcur hne hb hnf
    simp only [searchDescent, hcur, hne, Bool.false_eq_true, if_false,
      validate_batch_nonfinite hb hnf]
  · intro g src query en level ef fuel v hd hnf
    simp only [Graph.search_layer, validate_distance_nonfinite hd hnf]

/-- Witness for C7: a NaN-returning oracle makes each covered operation fail
with InvalidParameters at concrete inputs. -/
theorem claim_C7_witness :
    validate_distance nanSrc 0 1 = .error (.invalidParameters nonFiniteMsg)
  ∧ validate_batch_distances nanSrc 0 [1] =
      .error (.invalidParameters batchNonFiniteMsg)
  ∧ (Graph.mk P1 [some (Node.new 0)] (some ⟨0, 0⟩)).plan_insertion ⟨1, 0⟩ P1 nanSrc =
      .error (.invalidParameters batchNonFiniteMsg)
  ∧ evalTrimJob nanSrc 2 ⟨0, ⟨0, 1⟩, [1]⟩ =
      .error (.invalidParameters batchNonFiniteMsg)
  ∧ hnswSearch (Graph.mk P1 [some (Node.new 0)] (some ⟨0, 0⟩)) 1 3 P1 nanSrc 5 =
      .error (.invalidParameters nonFiniteMsg)
  ∧ searchDescent
      (Graph.mk P1 [some ⟨[[1], [1]]⟩, some ⟨[[0], [0]]⟩] (some ⟨1, 1⟩))
      nanSrc 5 4 1 1 0 = .error (.invalidParameters batchNonFiniteMsg)
  ∧ (Graph.mk P1 [some (Node.new 0)] (some ⟨0, 0⟩)).search_layer nanSrc 5 0 0 1 9 =
      .error (.invalidParameters nonFiniteMsg) := by
  obtain ⟨h1, h2, h3, h4, h5, h6, h7⟩ := claim_C7
  refine ⟨h1 nanSrc 0 1 .nan rfl rfl,
    h2 nanSrc 0 [1] [.nan] rfl (by decide),
    h3 (Graph.mk P1 [some (Node.new 0)] (some ⟨0, 0⟩)) ⟨1, 0⟩ P1 nanSrc [.nan]
      rfl (by decide) rfl (by decide),
    h4 nanSrc 2 ⟨0, ⟨0, 1⟩, [1]⟩ [.nan] rfl (by decide),
    h5 (Graph.mk P1 [some (Node.new 0)] (some ⟨0, 0⟩)) 1 3 P1 nanSrc 5 ⟨0, 0⟩
      .nan rfl rfl rfl,
    h6 (Graph.mk P1 [some ⟨[[1], [1]]⟩, some ⟨[[0], [0]]⟩] (some ⟨1, 1⟩))
      nanSrc 5 3 0 1 0 ⟨[[0], [0]]⟩ [.nan] rfl rfl rfl (by decide),
    h7 (Graph.mk P1 [some (Node.new 0)] (some ⟨0, 0⟩)) nanSrc 5 0 0 1 9 .nan
      rfl rfl⟩

/-! ### Claim C10: the level-bound error branch is unreachable from insert -/

theorem mapM_error_exists {α β : Type} {f : α → Except HnswError β} :
    ∀ {l : List α} {e : HnswError}, l.mapM f = .error e → ∃ a ∈ l, f a = .error e := by
  intro l
  induction l with
  | nil =>
    intro e h
    rw [List.mapM_nil] at h
    exact absurd h (by simp [Pure.pure, Except.pure])
  | cons a rest ih =>
    intro e h
    rw [List.mapM_cons] at h
    cases ha : f a with
    | error e1 =>
      rw [ha] at h
      have : e1 = e := by
        simpa [Bind.bind, Except.bind] using h
      exact ⟨a, List.mem_cons_self a rest, by rw [ha, this]⟩
    | ok b =>
      rw [ha] at h
      cases hrest : rest.mapM f with
      | error e2 =>
        rw [hrest] at h
        have he : e2 = e := by
          simpa [Bind.bind, Except.bind, Pure.pure] using h
        obtain ⟨a1, ha1, hfa1⟩ := ih (he ▸ hrest)
        exact ⟨a1, List.mem_cons_of_mem a ha1, hfa1⟩
      | ok bs =>
        rw [hrest] at h
        simp [Bind.bind, Except.bind, Pure.pure, Except.pure] at h

theorem validate_distance_ne_level (src : DataSource) (q c : Nat) :
    validate_distance src q c ≠ .error (.invalidParameters levelExceedsMsg) := by
  unfold validate_distance
  split
  · simp
  · split
    · simp
    · simp [nonFiniteMsg, levelExceedsMsg]

theorem validate_batch_ne_level (src : DataSource) (q : Nat) (cs : List Nat) :
    validate_batch_distances src q cs ≠
      .error (.invalidParameters levelExceedsMsg) := by
  unfold validate_batch_distances
  split
  · simp
  · split
    · simp [batchNonFiniteMsg, levelExceedsMsg]
    · simp

theorem attach_node_ne_level {g : Graph} {x lvl : Nat}
    (hlvl : lvl ≤ g.params.max_level) :
    (g.attach_node x lvl).2 ≠ .error (.invalidParameters levelExceedsMsg) := by
  simp only [Graph.attach_node]
  rw [if_neg (by omega)]
  split
  · simp [capacityMsg, levelExceedsMsg]
  · split
    · simp
    · simp

theorem insert_first_ne_level {g : Graph} {ctx : NodeContext}
    (hlvl : ctx.level ≤ g.params.max_level) :
    (g.insert_first ctx).2 ≠ .error (.invalidParameters levelExceedsMsg) := by
  simp only [Graph.insert_first]
  split
  · simp [hasEntryMsg, levelExceedsMsg]
  · split
    · rename_i g1 e hattach
      have := @attach_node_ne_level g ctx.node ctx.level hlvl
      rw [hattach] at this
      exact this
    · simp

theorem plan_ne_level (g : Graph) (ctx : NodeContext) (params : HnswParams)
    (src : DataSource) :
    g.plan_insertion ctx params src ≠
      .error (.invalidParameters levelExceedsMsg) := by
  simp only [Graph.plan_insertion]
  split
  · simp [noEntryMsg, levelExceedsMsg]
  · split
    · simp
    · split
      · rename_i e hval
        intro hcontra
        have hne := validate_batch_ne_level src ctx.node (g.planCandidates ctx.node)
        have he : e = .invalidParameters levelExceedsMsg := by simpa using hcontra
        rw [he] at hval
        exact hne hval
      · simp

theorem applyNeighbour_ne_level (g : Graph) (x mc L : Nat) (st : ApplyState)
    (nb : Neighbour) :
    applyNeighbour g x mc L st nb ≠
      .error (.invalidParameters levelExceedsMsg) := by
  simp only [applyNeighbour]
  split
  · simp
  · split
    · simp
    · split
      · rename_i e hinner
        intro hcontra
        have he : e = .graphInvariantViolation stagingMissingMsg := by
          split at hinner
          · split at hinner
            · injection hinner with h1; exact h1.symm
            · simp at hinner
          · simp at hinner
        rw [he] at hcontra
        simp at hcontra
      · simp

theorem applyNeighbours_ne_level (g : Graph) (x mc L : Nat) :
    ∀ (ts : List Neighbour) (st : ApplyState),
    applyNeighbours g x mc L ts st ≠
      .error (.invalidParameters levelExceedsMsg) := by
  intro ts
  induction ts with
  | nil => intro st; simp [applyNeighbours]
  | cons nb rest ih =>
    intro st
    simp only [applyNeighbours]
    split
    · rename_i e hnb
      have := applyNeighbour_ne_level g x mc L st nb
      rw [hnb] at this
      exact this
    · exact ih _

theorem applyLayers_ne_level (g : Graph) (x xlevel mc : Nat) :
    ∀ (layers : List LayerPlan) (st : ApplyState),
    applyLayers g x xlevel mc layers st ≠
      .error (.invalidParameters levelExceedsMsg) := by
  intro layers
  induction layers with
  | nil => intro st; simp [applyLayers]
  | cons layer rest ih =>
    intro st
    simp only [applyLayers]
    split
    · exact ih _
    · split
      · rename_i e hns
        have := applyNeighbours_ne_level g x mc layer.level (layer.neighbours.take mc) st
        rw [hns] at this
        exact this
      · exact ih _

theorem apply_ne_level {g : Graph} {node : NodeContext} {params : HnswParams}
    {plan : InsertionPlan} (hlvl : node.level ≤ g.params.max_level) :
    (g.apply_insertion node params plan).2 ≠
      .error (.invalidParameters levelExceedsMsg) := by
  simp only [Graph.apply_insertion]
  split
  · rename_i g1 e hattach
    intro hcontra
    have hne := @attach_node_ne_level g node.node node.level hlvl
    have he : e = .invalidParameters levelExceedsMsg := by simpa using hcontra
    rw [hattach] at hne
    exact hne (by rw [he])
  · rename_i g1 u hattach
    split
    · rename_i e hlayers
      intro hcontra
      have hne := applyLayers_ne_level g1 node.node node.level
        params.max_connections plan.layers
        ⟨List.replicate (node.level + 1) [], [], []⟩
      have he : e = .invalidParameters levelExceedsMsg := by simpa using hcontra
      rw [he] at hlayers
      exact hne hlayers
    · simp

theorem evalTrimJob_ne_level (src : DataSource) (x : Nat) (job : TrimJob) :
    evalTrimJob src x job ≠ .error (.invalidParameters levelExceedsMsg) := by
  simp only [evalTrimJob]
  split
  · rename_i e hval
    intro hcontra
    have hne := validate_batch_ne_level src (job.prioritise x).node
      (job.prioritise x).candidates
    have he : e = .invalidParameters levelExceedsMsg := by simpa using hcontra
    rw [he] at hval
    exact hne hval
  · simp

theorem commitUpdates_ne_level :
    ∀ (updates : List (Nat × Nat × List Nat)) (g : Graph)
      (tm : List ((Nat × Nat) × List Nat)),
    (commitUpdates updates g tm).2 ≠
      .error (.invalidParameters levelExceedsMsg) := by
  intro updates
  induction updates with
  | nil => intro g tm; simp [commitUpdates]
  | cons u rest ih =>
    intro g tm
    obtain ⟨n, level, candidates⟩ := u
    simp only [commitUpdates]
    split
    · simp [updateMissingMsg]
    · exact ih _ _

theorem commit_ne_level (g : Graph) (prepared : PreparedInsertion)
    (trims : List TrimResult) :
    (g.commit_insertion prepared trims).2 ≠
      .error (.invalidParameters levelExceedsMsg) := by
  simp only [Graph.commit_insertion]
  split
  · simp [commitMissingMsg]
  · rename_i slot hslot
    split
    · rename_i g2 e hupd
      have hne := commitUpdates_ne_level prepared.updates
        (g.setNode prepared.node.node (slot.writeAll 0 prepared.new_node_neighbours))
        (trimMapOf trims)
      rw [hupd] at hne
      exact hne
    · split
      · simp
      · simp

theorem insert_node_ne_level {g : Graph} {ctx : NodeContext}
    {params : HnswParams} {src : DataSource}
    (hlvl : ctx.level ≤ g.params.max_level) :
    (g.insert_node ctx params src).2 ≠
      .error (.invalidParameters levelExceedsMsg) := by
  simp only [Graph.insert_node]
  split
  · rename_i e hplan
    intro hcontra
    have hne := plan_ne_level g ctx params src
    have he : e = .invalidParameters levelExceedsMsg := by simpa using hcontra
    rw [he] at hplan
    exact hne hplan
  · rename_i plan0 hplan
    split
    · rename_i g1 e happly
      intro hcontra
      have hne := @apply_ne_level g ctx params (plan0.take_for_level ctx.level) hlvl
      have he : e = .invalidParameters levelExceedsMsg := by simpa using hcontra
      rw [happly] at hne
      exact hne (by rw [he])
    · rename_i g1 prepared jobs happly
      split
      · rename_i e htrims
        intro hcontra
        have he : e = .invalidParameters levelExceedsMsg := by simpa using hcontra
        rw [he] at htrims
        obtain ⟨job, hjob, hfjob⟩ := mapM_error_exists htrims
        exact evalTrimJob_ne_level src ctx.node job hfjob
      · exact commit_ne_level _ _ _

/-- C10: CpuHnsw::insert never returns the InvalidParameters error of
attach_node's level bound check: the sampled level never exceeds max_level,
so that branch is unreachable on every path from insert, for every
parameter set (with the graph constructed from those parameters), flip
stream, node id and oracle. -/
theorem claim_C10 (h : CpuHnsw) (node : Nat) (flips : Nat → Bool)
    (src : DataSource) (hp : h.graph.params.max_level = h.params.max_level) :
    (h.insert node flips src).2 ≠ .error (.invalidParameters levelExceedsMsg) := by
  have hlvl : sample_level h.params.max_level flips ≤ h.graph.params.max_level := by
    rw [hp]; exact sample_level_le _ _
  simp only [CpuHnsw.insert]
  split
  · split
    · rename_i g1 e hins
      have := @insert_node_ne_level h.graph
        ⟨node, sample_level h.params.max_level flips⟩ h.params src hlvl
      rw [hins] at this
      exact this
    · simp
  · split
    · rename_i e hval
      intro hcontra
      have hne := validate_distance_ne_level src node node
      have he : e = .invalidParameters levelExceedsMsg := by simpa using hcontra
      rw [he] at hval
      exact hne hval
    · split
      · rename_i g1 e hfirst
        have := @insert_first_ne_level h.graph
          ⟨node, sample_level h.params.max_level flips⟩ hlvl
        rw [hfirst] at this
        exact this
      · simp

/-- Witness for C10 at a concrete index, node and oracle. -/
theorem claim_C10_witness :
    ((CpuHnsw.new P1 0).insert 0 flipsF lineSrc).2 ≠
      .error (.invalidParameters levelExceedsMsg) :=
  claim_C10 (CpuHnsw.new P1 0) 0 flipsF lineSrc rfl

/-! ### Claim C5: entry-point monotonicity and promotion flag -/

/-- C5: the entry point's level never decreases across insert calls; in a
non-bootstrap insertion the prepared promote flag is set precisely when the
new node's sampled level strictly exceeds the current entry's level (equal
levels do not promote); and commit updates the entry point exactly when that
flag is set. -/
theorem claim_C5 :
    (∀ (h : CpuHnsw) (node : Nat) (flips : Nat → Bool) (src : DataSource)
      (h1 : CpuHnsw), h.insert node flips src = (h1, .ok ()) →
      (h.graph.entry.map EntryPoint.level).getD 0 ≤
        (h1.graph.entry.map EntryPoint.level).getD 0)
  ∧ (∀ (g g1 : Graph) (ctx : NodeContext) (params : HnswParams)
      (plan : InsertionPlan) (prep : PreparedInsertion) (jobs : List TrimJob)
      (e : EntryPoint),
      g.apply_insertion ctx params plan = (g1, .ok (prep, jobs)) →
      g.entry = some e →
      prep.promote_entry = decide (e.level < ctx.level))
  ∧ (∀ (g : Graph) (prep : PreparedInsertion) (trims : List TrimResult)
      (g2 : Graph), g.commit_insertion prep trims = (g2, .ok ()) →
      (prep.promote_entry = true →
        g2.entry = some ⟨prep.node.node, prep.node.level⟩) ∧
      (prep.promote_entry = false → g2.entry = g.entry)) := by
  refine ⟨?_, ?_, ?_⟩
  · intro h node flips src h1 hok
    simp only [CpuHnsw.insert] at hok
    split at hok
    · rename_i hsome
      split at hok
      · simp [Prod.ext_iff] at hok
      · rename_i g1 u hins
        have h1g : h1.graph = g1 := by
          have := congrArg Prod.fst hok
          simp only at this
          rw [← this]
        obtain ⟨plan0, ga, prep, jobs, trims, hplan, happly, htrims, hcommit⟩ :=
          insert_node_ok hins
        obtain ⟨hattach, st, hst, hprep, hjobs⟩ := apply_insertion_ok happly
        have hent2 := commit_insertion_ok_entry hcommit
        obtain ⟨e, hE⟩ := Option.isSome_iff_exists.mp hsome
        obtain ⟨-, -, -, hentpres, -, -⟩ := attach_node_ok hattach
        rw [hprep] at hent2
        simp only at hent2
        rw [hE] at hent2
        simp only at hent2
        rw [h1g, hent2, hE]
        by_cases hlt : e.level < sample_level h.params.max_level flips
        · rw [if_pos (decide_eq_true hlt)]
          exact Nat.le_of_lt hlt
        · rw [if_neg (by simpa using hlt), hentpres, hE]
    · rename_i hnone
      split at hok
      · simp [Prod.ext_iff] at hok
      · split at hok
        · simp [Prod.ext_iff] at hok
        · rename_i g1 u hfirst
          have h1g : h1.graph = g1 := by
            have := congrArg Prod.fst hok
            simp only at this
            rw [← this]
          obtain ⟨-, -, -, -, hent1, -⟩ := insert_first_ok hfirst
          have hentnone : h.graph.entry = none :=
            Option.not_isSome_iff_eq_none.mp (by simpa using hnone)
          rw [hentnone, h1g, hent1]
          simp
  · intro g g1 ctx params plan prep jobs e happly hE
    obtain ⟨hattach, st, hst, hprep, hjobs⟩ := apply_insertion_ok happly
    rw [hprep, hE]
  · intro g prep trims g2 hcommit
    have hent := commit_insertion_ok_entry hcommit
    constructor
    · intro hpr
      rw [hent, if_pos hpr]
    · intro hpr
      rw [hent, if_neg (by simp [hpr])]

/-- Witness for C5: the three conjuncts instantiated at concrete runs — a
bootstrap insert, a concrete apply_insertion with an equal-level tie (no
promotion), and a concrete commit with the flag clear. -/
theorem claim_C5_witness :
    ((CpuHnsw.new P1 0).graph.entry.map EntryPoint.level).getD 0 ≤
      ((((CpuHnsw.new P1 0).insert 0 flipsF lineSrc).1).graph.entry.map
        EntryPoint.level).getD 0
  ∧ (PreparedInsertion.mk ⟨2, 0⟩ false [[1]] [(1, 0, [0, 2])]).promote_entry =
      decide ((0 : Nat) < 0)
  ∧ (((PreparedInsertion.mk ⟨0, 0⟩ false [[]] []).promote_entry = true →
        ((Graph.mk P1 [some (Node.new 0)] (some ⟨0, 0⟩)).commit_insertion
          ⟨⟨0, 0⟩, false, [[]], []⟩ []).1.entry = some ⟨0, 0⟩) ∧
      ((PreparedInsertion.mk ⟨0, 0⟩ false [[]] []).promote_entry = false →
        ((Graph.mk P1 [some (Node.new 0)] (some ⟨0, 0⟩)).commit_insertion
          ⟨⟨0, 0⟩, false, [[]], []⟩ []).1.entry =
          (Graph.mk P1 [some (Node.new 0)] (some ⟨0, 0⟩)).entry)) := by
  obtain ⟨h1, h2, h3⟩ := claim_C5
  refine ⟨h1 (CpuHnsw.new P1 0) 0 flipsF lineSrc
      ((CpuHnsw.new P1 0).insert 0 flipsF lineSrc).1 rfl,
    h2 (Graph.mk P1 [some ⟨[[1]]⟩, some ⟨[[0]]⟩] (some ⟨0, 0⟩))
      ((Graph.mk P1 [some ⟨[[1]]⟩, some ⟨[[0]]⟩] (some ⟨0, 0⟩)).apply_insertion
        ⟨2, 0⟩ P1 ⟨[⟨0, [⟨1, 1⟩]⟩]⟩).1
      ⟨2, 0⟩ P1 ⟨[⟨0, [⟨1, 1⟩]⟩]⟩
      ⟨⟨2, 0⟩, false, [[1]], [(1, 0, [0, 2])]⟩ [⟨1, ⟨0, 1⟩, [2, 0]⟩] ⟨0, 0⟩
      rfl rfl,
    h3 (Graph.mk P1 [some (Node.new 0)] (some ⟨0, 0⟩)) ⟨⟨0, 0⟩, false, [[]], []⟩
      [] ((Graph.mk P1 [some (Node.new 0)] (some ⟨0, 0⟩)).commit_insertion
        ⟨⟨0, 0⟩, false, [[]], []⟩ []).1 rfl⟩



/-! ### Candidate-map and trim-map lemmas -/

theorem lookupStaged_cons (e : (Nat × Nat) × List Nat)
    (m : List ((Nat × Nat) × List Nat)) (k : Nat × Nat) :
    lookupStaged (e :: m) k =
      if e.1 = k then some e.2 else lookupStaged m k := by
  unfold lookupStaged
  rw [List.find?_cons]
  by_cases he : e.1 = k
  · simp [he]
  · simp [he, beq_eq_false_iff_ne.mpr he]

theorem lookupStaged_mem {m : List ((Nat × Nat) × List Nat)} {k : Nat × Nat}
    {v : List Nat} (h : lookupStaged m k = some v) : (k, v) ∈ m := by
  induction m with
  | nil => simp [lookupStaged] at h
  | cons e rest ih =>
    rw [lookupStaged_cons] at h
    split at h
    · rename_i hek
      injection h with h
      have hkv : (k, v) = e := by
        obtain ⟨a, b⟩ := e
        simp only at hek h
        rw [← hek, ← h]
      rw [hkv]
      exact List.mem_cons_self e rest
    · exact List.mem_cons_of_mem e (ih h)

theorem mem_storeStaged {m : List ((Nat × Nat) × List Nat)} {key : Nat × Nat}
    {v : List Nat} {p : (Nat × Nat) × List Nat}
    (h : p ∈ storeStaged m key v) : p = (key, v) ∨ p ∈ m := by
  unfold storeStaged at h
  split at h
  · obtain ⟨e, hem, hfe⟩ := List.mem_map.mp h
    by_cases he : (e.1 == key) = true
    · rw [if_pos he] at hfe
      exact .inl hfe.symm
    · rw [if_neg he] at hfe
      exact .inr (hfe ▸ hem)
  · rcases List.mem_append.mp h with hm | hnew
    · exact .inr hm
    · exact .inl (List.mem_singleton.mp hnew)

theorem map_store_keys (key : Nat × Nat) (v : List Nat) :
    ∀ m : List ((Nat × Nat) × List Nat),
    (m.map (fun e => if (e.1 == key) = true then (key, v) else e)).map Prod.fst =
      m.map Prod.fst := by
  intro m
  induction m with
  | nil => rfl
  | cons e rest ih =>
    rw [List.map_cons, List.map_cons, List.map_cons, ih]
    by_cases he : (e.1 == key) = true
    · rw [if_pos he]
      have he1 : e.1 = key := beq_iff_eq.mp he
      rw [show ((key, v) : (Nat × Nat) × List Nat).1 = key from rfl, he1]
    · rw [if_neg he]

theorem storeStaged_keys (m : List ((Nat × Nat) × List Nat)) (key : Nat × Nat)
    (v : List Nat) :
    (storeStaged m key v).map Prod.fst = m.map Prod.fst ∨
    (storeStaged m key v).map Prod.fst = m.map Prod.fst ++ [key] ∧
      key ∉ m.map Prod.fst := by
  unfold storeStaged
  split
  · exact .inl (map_store_keys key v m)
  · rename_i hany
    right
    constructor
    · simp
    · intro hk
      obtain ⟨e, hem, hfe⟩ := List.mem_map.mp hk
      exact hany (List.any_eq_true.mpr ⟨e, hem, beq_iff_eq.mpr hfe⟩)

theorem storeStaged_keys_nodup {m : List ((Nat × Nat) × List Nat)}
    {key : Nat × Nat} {v : List Nat} (h : (m.map Prod.fst).Nodup) :
    ((storeStaged m key v).map Prod.fst).Nodup := by
  rcases storeStaged_keys m key v with hk | ⟨hk, hnot⟩
  · rw [hk]; exact h
  · rw [hk]
    have := List.perm_append_singleton key (m.map Prod.fst)
    exact this.nodup_iff.mpr (List.nodup_cons.mpr ⟨hnot, h⟩)

theorem lookup_mapstore_self (key : Nat × Nat) (v : List Nat) :
    ∀ m : List ((Nat × Nat) × List Nat),
    (m.any (fun e => e.1 == key)) = true →
    lookupStaged (m.map (fun e => if (e.1 == key) = true then (key, v) else e))
      key = some v := by
  intro m
  induction m with
  | nil => intro hany; simp at hany
  | cons e rest ih =>
    intro hany
    rw [List.map_cons]
    by_cases he : (e.1 == key) = true
    · rw [if_pos he, lookupStaged_cons, if_pos rfl]
    · rw [if_neg he, lookupStaged_cons,
        if_neg (fun hc => he (beq_iff_eq.mpr hc))]
      rw [List.any_cons] at hany
      exact ih (by simpa [he] using hany)

theorem lookup_append_self (key : Nat × Nat) (v : List Nat) :
    ∀ m : List ((Nat × Nat) × List Nat),
    (m.any (fun e => e.1 == key)) = false →
    lookupStaged (m ++ [(key, v)]) key = some v := by
  intro m
  induction m with
  | nil => intro _; rw [List.nil_append, lookupStaged_cons, if_pos rfl]
  | cons e rest ih =>
    intro hany
    rw [List.any_cons] at hany
    have he : (e.1 == key) = false := by
      cases hb : (e.1 == key) <;> simp [hb] at hany ⊢
    rw [List.cons_append, lookupStaged_cons,
      if_neg (fun hc => by simp [hc] at he)]
    exact ih (by simpa [he] using hany)

theorem lookupStaged_store_self (m : List ((Nat × Nat) × List Nat))
    (key : Nat × Nat) (v : List Nat) :
    lookupStaged (storeStaged m key v) key = some v := by
  unfold storeStaged
  split
  · rename_i hany
    exact lookup_mapstore_self key v m hany
  · rename_i hany
    have hf : (m.any fun e => e.1 == key) = false := by
      cases hb : (m.any fun e => e.1 == key)
      · rfl
      · exact absurd hb hany
    exact lookup_append_self key v m hf

theorem lookup_mapstore_ne (key k2 : Nat × Nat) (v : List Nat) (h : k2 ≠ key) :
    ∀ m : List ((Nat × Nat) × List Nat),
    lookupStaged (m.map (fun e => if (e.1 == key) = true then (key, v) else e))
      k2 = lookupStaged m k2 := by
  intro m
  induction m with
  | nil => rfl
  | cons e rest ih =>
    rw [List.map_cons, lookupStaged_cons, lookupStaged_cons]
    by_cases he : (e.1 == key) = true
    · rw [if_pos he]
      have he1 : e.1 = key := beq_iff_eq.mp he
      rw [if_neg (fun hc => h hc.symm), if_neg (fun hc => h (he1 ▸ hc).symm)]
      exact ih
    · rw [if_neg he]
      by_cases hek : e.1 = k2
      · rw [if_pos hek, if_pos hek]
      · rw [if_neg hek, if_neg hek]
        exact ih

theorem lookup_append_ne (key k2 : Nat × Nat) (v : List Nat) (h : k2 ≠ key) :
    ∀ m : List ((Nat × Nat) × List Nat),
    lookupStaged (m ++ [(key, v)]) k2 = lookupStaged m k2 := by
  intro m
  induction m with
  | nil =>
    rw [List.nil_append, lookupStaged_cons,
      if_neg (fun hc => h (by simpa using hc.symm))]
  | cons e rest ih =>
    rw [List.cons_append, lookupStaged_cons, lookupStaged_cons]
    by_cases hek : e.1 = k2
    · rw [if_pos hek, if_pos hek]
    · rw [if_neg hek, if_neg hek]
      exact ih

theorem lookupStaged_store_ne (m : List ((Nat × Nat) × List Nat))
    {key k2 : Nat × Nat} (v : List Nat) (h : k2 ≠ key) :
    lookupStaged (storeStaged m key v) k2 = lookupStaged m k2 := by
  unfold storeStaged
  split
  · exact lookup_mapstore_ne key k2 v h m
  · exact lookup_append_ne key k2 v h m

theorem lookup_filter_ne {key k2 : Nat × Nat} (h : k2 ≠ key) :
    ∀ m : List ((Nat × Nat) × List Nat),
    lookupStaged (m.filter (fun e => !(e.1 == key))) k2 = lookupStaged m k2 := by
  intro m
  induction m with
  | nil => rfl
  | cons e rest ih =>
    rw [List.filter_cons, lookupStaged_cons]
    by_cases he : (e.1 == key) = true
    · rw [if_neg (by simp [he])]
      rw [if_neg (fun hc => h ((beq_iff_eq.mp he) ▸ hc).symm)]
      exact ih
    · rw [if_pos (by simp [he]), lookupStaged_cons]
      by_cases hek : e.1 = k2
      · rw [if_pos hek, if_pos hek]
      · rw [if_neg hek, if_neg hek]
        exact ih

theorem trimMap_lookup_aux (trims : List TrimResult) :
    ∀ (m : List ((Nat × Nat) × List Nat)) (key : Nat × Nat) (v : List Nat),
    lookupStaged (trims.foldl
      (fun m t => storeStaged m (t.node, t.level) t.neighbours) m) key = some v →
    (∃ t ∈ trims, (t.node, t.level) = key ∧ t.neighbours = v) ∨
      lookupStaged m key = some v := by
  induction trims with
  | nil => intro m key v h; exact .inr h
  | cons t rest ih =>
    intro m key v h
    rw [List.foldl_cons] at h
    rcases ih _ key v h with ⟨t1, ht1, hk, hv⟩ | hbase
    · exact .inl ⟨t1, List.mem_cons_of_mem t ht1, hk, hv⟩
    · by_cases hk : key = (t.node, t.level)
      · rw [hk, lookupStaged_store_self] at hbase
        injection hbase with hb
        exact .inl ⟨t, List.mem_cons_self t rest, hk.symm, hb⟩
      · rw [lookupStaged_store_ne _ _ hk] at hbase
        exact .inr hbase

theorem trimMap_lookup {trims : List TrimResult} {key : Nat × Nat}
    {v : List Nat} (h : lookupStaged (trimMapOf trims) key = some v) :
    ∃ t ∈ trims, (t.node, t.level) = key ∧ t.neighbours = v := by
  rcases trimMap_lookup_aux trims [] key v h with ht | hbase
  · exact ht
  · simp [lookupStaged, List.find?] at hbase

theorem trimMap_present_aux (trims : List TrimResult) :
    ∀ (m : List ((Nat × Nat) × List Nat)) (key : Nat × Nat),
    ((∃ t ∈ trims, (t.node, t.level) = key) ∨
      (lookupStaged m key).isSome = true) →
    (lookupStaged (trims.foldl
      (fun m t => storeStaged m (t.node, t.level) t.neighbours) m) key).isSome
      = true := by
  induction trims with
  | nil =>
    intro m key h
    rcases h with ⟨t, ht, -⟩ | h
    · simp at ht
    · exact h
  | cons t rest ih =>
    intro m key h
    rw [List.foldl_cons]
    apply ih
    rcases h with ⟨t1, ht1, hk⟩ | hbase
    · rcases List.mem_cons.mp ht1 with h1 | h1
      · right
        rw [← hk, h1, lookupStaged_store_self]
        rfl
      · exact .inl ⟨t1, h1, hk⟩
    · right
      by_cases hk : key = (t.node, t.level)
      · rw [hk, lookupStaged_store_self]; rfl
      · rw [lookupStaged_store_ne _ _ hk]; exact hbase

theorem trimMap_present {trims : List TrimResult} {t : TrimResult}
    (ht : t ∈ trims) :
    (lookupStaged (trimMapOf trims) (t.node, t.level)).isSome = true :=
  trimMap_present_aux trims [] (t.node, t.level) (.inl ⟨t, ht, rfl⟩)

theorem findIdx_append_x {x : Nat} :
    ∀ (old : List Nat) (i : Nat), x ∉ old →
    List.findIdx? (fun c => c == x) (old ++ [x]) i = some (old.length + i) := by
  intro old
  induction old with
  | nil =>
    intro i _
    rw [List.nil_append, List.findIdx?_cons, if_pos (beq_self_eq_true x)]
    simp
  | cons e t ih =>
    intro i hx
    have he : (e == x) = false :=
      beq_eq_false_iff_ne.mpr (fun hc => hx (hc ▸ List.mem_cons_self e t))
    rw [List.cons_append, List.findIdx?_cons, if_neg (by simp [he]),
      ih (i + 1) (fun hc => hx (List.mem_cons_of_mem e hc))]
    congr 1
    simp [List.length_cons]
    omega

theorem take_succ_set {α : Type} :
    ∀ (l : List α) (i : Nat) (a : α), i < l.length →
    (l.set i a).take (i + 1) = l.take i ++ [a] := by
  intro l
  induction l with
  | nil => intro i a h; simp at h
  | cons b t ih =>
    intro i a h
    cases i with
    | zero => simp
    | succ j =>
      rw [List.set_cons_succ]
      rw [List.take_succ_cons, List.take_succ_cons, ih j a (by simpa using h)]
      rfl

theorem writeAll_eq :
    ∀ (l : List (List Nat)) (nd : Node) (i : Nat),
    nd.neighbours.length = i + l.length →
    (nd.writeAll i l).neighbours = nd.neighbours.take i ++ l := by
  intro l
  induction l with
  | nil =>
    intro nd i h
    unfold Node.writeAll
    rw [List.append_nil]
    simp only [List.length_nil] at h
    exact (List.take_of_length_le (by omega)).symm
  | cons ns rest ih =>
    intro nd i h
    unfold Node.writeAll
    have hlt : i < nd.neighbours.length := by simp at h; omega
    have hset : nd.setNeighbours i ns = ⟨nd.neighbours.set i ns⟩ := by
      unfold Node.setNeighbours
      rw [if_neg (by omega)]
    rw [hset]
    rw [ih ⟨nd.neighbours.set i ns⟩ (i + 1) (by simp at h ⊢; omega)]
    show (nd.neighbours.set i ns).take (i + 1) ++ rest = _
    rw [take_succ_set nd.neighbours i ns hlt]
    simp

theorem map_fst_zip_take {β : Type} :
    ∀ (c : List Nat) (ds : List β),
    (c.zip ds).map Prod.fst = c.take ds.length := by
  intro c
  induction c with
  | nil => intro ds; simp
  | cons a t ih =>
    intro ds
    cases ds with
    | nil => simp
    | cons d dt =>
      rw [List.zip_cons_cons, List.map_cons, ih]
      simp [List.take_succ_cons]

theorem mapM_ok_mem {α β : Type} {f : α → Except HnswError β} :
    ∀ {l : List α} {res : List β}, l.mapM f = .ok res →
    (∀ b ∈ res, ∃ a ∈ l, f a = .ok b) ∧ (∀ a ∈ l, ∃ b ∈ res, f a = .ok b) := by
  intro l
  induction l with
  | nil =>
    intro res h
    rw [List.mapM_nil] at h
    have hres : res = [] := by
      have := h.symm
      simpa [Pure.pure, Except.pure] using this
    subst hres
    simp
  | cons a rest ih =>
    intro res h
    rw [List.mapM_cons] at h
    cases ha : f a with
    | error e =>
      rw [ha] at h
      simp [Bind.bind, Except.bind] at h
    | ok b =>
      rw [ha] at h
      cases hrest : rest.mapM f with
      | error e =>
        rw [hrest] at h
        simp [Bind.bind, Except.bind] at h
      | ok bs =>
        rw [hrest] at h
        have hres : res = b :: bs := by
          have := h.symm
          simpa [Bind.bind, Except.bind, Pure.pure, Except.pure] using this
        subst hres
        obtain ⟨ih1, ih2⟩ := ih hrest
        constructor
        · intro b2 hb2
          rcases List.mem_cons.mp hb2 with hb | hb
          · exact ⟨a, List.mem_cons_self a rest, hb ▸ ha⟩
          · obtain ⟨a1, ha1, hfa⟩ := ih1 b2 hb
            exact ⟨a1, List.mem_cons_of_mem a ha1, hfa⟩
        · intro a2 ha2
          rcases List.mem_cons.mp ha2 with h2 | h2
          · exact ⟨b, List.mem_cons_self b bs, h2 ▸ ha⟩
          · obtain ⟨b2, hb2, hfb⟩ := ih2 a2 h2
            exact ⟨b2, List.mem_cons_of_mem b hb2, hfb⟩

theorem prioritise_append_explicit {n : Nat} {ec : EdgeContext}
    {old : List Nat} {x : Nat} (hx : x ∉ old) :
    (TrimJob.mk n ec (old ++ [x])).prioritise x =
      TrimJob.mk n ec
        (match old with
         | [] => [x]
         | e0 :: t => x :: (t ++ [e0])) := by
  unfold TrimJob.prioritise
  rw [show (TrimJob.mk n ec (old ++ [x])).candidates = old ++ [x] from rfl,
    findIdx_append_x old 0 hx]
  cases old with
  | nil => rfl
  | cons e0 t =>
    show TrimJob.mk n ec (listSwap ((e0 :: t) ++ [x]) 0 ((e0 :: t).length + 0)) = _
    unfold listSwap
    rw [List.cons_append]
    have h0 : (e0 :: (t ++ [x]))[0]? = some e0 := List.getElem?_cons_zero
    have hlen : (e0 :: (t ++ [x]))[(e0 :: t).length + 0]? = some x := by
      simp only [List.length_cons, Nat.add_zero]
      rw [List.getElem?_cons_succ, List.getElem?_append_right (Nat.le_refl _)]
      simp
    rw [h0, hlen]
    show TrimJob.mk n ec
      (((e0 :: (t ++ [x])).set 0 x).set ((e0 :: t).length + 0) e0) = _
    simp only [List.length_cons, Nat.add_zero]
    rw [show (e0 :: (t ++ [x])).set 0 x = x :: (t ++ [x]) from rfl,
      List.set_cons_succ, List.set_append]
    rw [if_neg (by omega)]
    simp

theorem prioritise_append_props {n : Nat} {ec : EdgeContext}
    {old : List Nat} {x : Nat} (hx : x ∉ old) :
    ((TrimJob.mk n ec (old ++ [x])).prioritise x).node = n ∧
    ((TrimJob.mk n ec (old ++ [x])).prioritise x).ctx = ec ∧
    ((TrimJob.mk n ec (old ++ [x])).prioritise x).candidates.head? = some x ∧
    ((TrimJob.mk n ec (old ++ [x])).prioritise x).candidates.Perm (x :: old) := by
  rw [prioritise_append_explicit hx]
  cases old with
  | nil => exact ⟨rfl, rfl, rfl, List.Perm.refl _⟩
  | cons e0 t =>
    exact ⟨rfl, rfl, rfl, List.Perm.cons x (List.perm_append_singleton e0 t)⟩

theorem prioritise_head {job : TrimJob} {x : Nat}
    (h : job.candidates.head? = some x) : job.prioritise x = job := by
  obtain ⟨n, ec, cands⟩ := job
  cases cands with
  | nil => simp at h
  | cons a t =>
    rw [List.head?_cons] at h
    injection h with h
    subst h
    unfold TrimJob.prioritise
    show (match List.findIdx? (fun c => c == a) (a :: t) 0 with
      | none => TrimJob.mk n ec (a :: t)
      | some index =>
        { TrimJob.mk n ec (a :: t) with
          candidates := listSwap (a :: t) 0 index }) = _
    rw [List.findIdx?_cons, if_pos (beq_self_eq_true a)]
    show TrimJob.mk n ec (listSwap (a :: t) 0 0) = _
    unfold listSwap
    rw [List.getElem?_cons_zero]
    rfl

theorem applyNeighbour_inv {g : Graph} {x mc L : Nat} {st st1 : ApplyState}
    {nb : Neighbour}
    (hxnot : ∀ n K, x ∉ g.listAt n K)
    (hinv : StagedInv g x mc st)
    (hok : applyNeighbour g x mc L st nb = .ok st1) :
    StagedInv g x mc st1 ∧
    st1.new_node_neighbours.length = st.new_node_neighbours.length ∧
    (∀ K, K ≠ L → st1.new_node_neighbours.getD K [] =
      st.new_node_neighbours.getD K []) ∧
    (st1.new_node_neighbours.getD L []).length ≤
      (st.new_node_neighbours.getD L []).length + 1 := by
  obtain ⟨hS1, hS2, hS3, hS4, hS5⟩ := hinv
  simp only [applyNeighbour] at hok
  split at hok
  · injection hok with hok
    subst hok
    exact ⟨⟨hS1, hS2, hS3, hS4, hS5⟩, rfl, fun K _ => rfl, by omega⟩
  · rename_i hnbx
    split at hok
    · exact absurd hok (by simp)
    · rename_i layer_vec hlv
      split at hok
      · exact absurd hok (by simp)
      · rename_i c1 hc1
        injection hok with hok
        subst hok
        have hkey : (g.node nb.id).isSome = true ∧
            (if x ∈ c1 then c1 else c1 ++ [x]) = g.listAt nb.id L ++ [x] := by
          cases hstag : lookupStaged st.staged (nb.id, L) with
          | some v0 =>
            have hmem := lookupStaged_mem hstag
            obtain ⟨hne, hatt, hv0⟩ := hS1 _ hmem
            dsimp only at hne hatt hv0
            rw [hstag] at hc1
            simp only [Option.getD_some] at hc1
            have hne0 : v0.isEmpty = false := by
              rw [hv0]
              cases g.listAt nb.id L <;> rfl
            rw [hne0] at hc1
            simp only [Bool.false_eq_true, if_false] at hc1
            injection hc1 with hc1
            have hxin : x ∈ c1 := by
              rw [← hc1, hv0]
              exact List.mem_append_right _ (List.mem_singleton.mpr rfl)
            rw [if_pos hxin, ← hc1, hv0]
            exact ⟨hatt, rfl⟩
          | none =>
            rw [hstag] at hc1
            simp only [Option.getD_none, List.isEmpty_nil, if_true] at hc1
            split at hc1
            · exact absurd hc1 (by simp)
            · rename_i nd hnd
              injection hc1 with hc1
              have hatt : (g.node nb.id).isSome = true := by rw [hnd]; rfl
              have hlist : g.listAt nb.id L = nd.neighboursAt L := by
                unfold Graph.listAt
                rw [hnd]
              have hxnotc : x ∉ c1 := by
                rw [← hc1, List.nil_append, ← hlist]
                exact hxnot nb.id L
              rw [if_neg hxnotc, ← hc1, List.nil_append, ← hlist]
              exact ⟨hatt, rfl⟩
        obtain ⟨hattB, hc2⟩ := hkey
        rw [hc2]
        have hLlt : L < st.new_node_neighbours.length := by
          by_contra hge
          rw [List.getElem?_eq_none_iff.mpr (by omega)] at hlv
          exact absurd hlv (by simp)
        have hlvmem : layer_vec ∈ st.new_node_neighbours := List.getElem?_mem hlv
        obtain ⟨hlvnd, hlvx, hlvatt⟩ := hS5 layer_vec hlvmem
        refine ⟨⟨?_, ?_, ?_, ?_, ?_⟩, ?_, ?_, ?_⟩
        · intro p hp
          rcases mem_storeStaged hp with hpeq | hpm
          · subst hpeq
            exact ⟨hnbx, hattB, rfl⟩
          · exact hS1 p hpm
        · exact storeStaged_keys_nodup hS2
        · intro p hp hlen
          by_cases hexc : mc < (g.listAt nb.id L ++ [x]).length
          · rw [if_pos hexc]
            rcases mem_storeStaged hp with hpeq | hpm
            · subst hpeq
              obtain ⟨hjn, hjc, -, -⟩ :=
                @prioritise_append_props nb.id ⟨L, mc⟩
                  (g.listAt nb.id L) x (hxnot nb.id L)
              refine ⟨_, List.mem_append_right _ (List.mem_singleton.mpr rfl),
                ?_, ?_⟩
              · rw [hjn]
              · rw [hjc]
            · obtain ⟨job, hjm, hjp⟩ := hS3 p hpm hlen
              exact ⟨job, List.mem_append_left _ hjm, hjp⟩
          · rw [if_neg hexc]
            rcases mem_storeStaged hp with hpeq | hpm
            · subst hpeq
              exact absurd hlen hexc
            · exact hS3 p hpm hlen
        · intro job hj
          by_cases hexc : mc < (g.listAt nb.id L ++ [x]).length
          · rw [if_pos hexc] at hj
            rcases List.mem_append.mp hj with hold | hnew
            · exact hS4 job hold
            · rw [List.mem_singleton.mp hnew]
              obtain ⟨hjn, hjc, hjh, hjp⟩ :=
                @prioritise_append_props nb.id ⟨L, mc⟩
                  (g.listAt nb.id L) x (hxnot nb.id L)
              refine ⟨?_, ?_, ?_, hjh, ?_⟩
              · rw [hjn]; exact hnbx
              · rw [hjn]; exact hattB
              · rw [hjc]
              · rw [hjn, hjc]
                exact hjp
          · rw [if_neg hexc] at hj
            exact hS4 job hj
        · intro lst hl
          rcases List.mem_or_eq_of_mem_set hl with hmem | hlst
          · exact hS5 lst hmem
          · subst hlst
            by_cases hin : nb.id ∈ layer_vec
            · rw [if_pos hin]
              exact ⟨hlvnd, hlvx, hlvatt⟩
            · rw [if_neg hin]
              refine ⟨?_, ?_, ?_⟩
              · exact (List.perm_append_singleton nb.id layer_vec).nodup_iff.mpr
                  (List.nodup_cons.mpr ⟨hin, hlvnd⟩)
              · intro hxin
                rcases List.mem_append.mp hxin with hxa | hxb
                · exact hlvx hxa
                · exact hnbx (List.mem_singleton.mp hxb).symm
              · intro id hid
                rcases List.mem_append.mp hid with hida | hidb
                · exact hlvatt id hida
                · rw [List.mem_singleton.mp hidb]
                  exact hattB
        · exact List.length_set st.new_node_neighbours L _
        · intro K hK
          rw [List.getD_eq_getElem?_getD, List.getD_eq_getElem?_getD,
            List.getElem?_set_ne (fun hc => hK hc.symm)]
        · rw [List.getD_eq_getElem?_getD, List.getD_eq_getElem?_getD,
            List.getElem?_set_self hLlt, hlv]
          simp only [Option.getD_some]
          by_cases hin : nb.id ∈ layer_vec
          · rw [if_pos hin]; omega
          · rw [if_neg hin]
            simp only [List.length_append, List.length_cons, List.length_nil]
            omega

theorem applyNeighbours_inv {g : Graph} {x mc L : Nat} :
    ∀ {ts : List Neighbour} {st st1 : ApplyState},
    (∀ n K, x ∉ g.listAt n K) →
    StagedInv g x mc st →
    applyNeighbours g x mc L ts st = .ok st1 →
    StagedInv g x mc st1 ∧
    st1.new_node_neighbours.length = st.new_node_neighbours.length ∧
    (∀ K, K ≠ L → st1.new_node_neighbours.getD K [] =
      st.new_node_neighbours.getD K []) ∧
    (st1.new_node_neighbours.getD L []).length ≤
      (st.new_node_neighbours.getD L []).length + ts.length := by
  intro ts
  induction ts with
  | nil =>
    intro st st1 _ hinv hok
    unfold applyNeighbours at hok
    injection hok with hok
    subst hok
    exact ⟨hinv, rfl, fun K _ => rfl, by omega⟩
  | cons nb rest ih =>
    intro st st1 hxnot hinv hok
    unfold applyNeighbours at hok
    split at hok
    · exact absurd hok (by simp)
    · rename_i stm hnb
      obtain ⟨hinv1, hlen1, hother1, hL1⟩ := applyNeighbour_inv hxnot hinv hnb
      obtain ⟨hinv2, hlen2, hother2, hL2⟩ := ih hxnot hinv1 hok
      refine ⟨hinv2, hlen2.trans hlen1, ?_, ?_⟩
      · intro K hK
        rw [hother2 K hK, hother1 K hK]
      · simp only [List.length_cons]
        omega

theorem getD_replicate_nil (m K : Nat) :
    (List.replicate m ([] : List Nat)).getD K [] = [] := by
  rw [List.getD_eq_getElem?_getD, List.getElem?_replicate]
  split <;> rfl

theorem applyLayers_inv {g : Graph} {x xlevel mc : Nat} :
    ∀ {layers : List LayerPlan} {st st1 : ApplyState},
    (∀ n K, x ∉ g.listAt n K) →
    StagedInv g x mc st →
    (layers.map LayerPlan.level).Nodup →
    (∀ layer ∈ layers, st.new_node_neighbours.getD layer.level [] = []) →
    (∀ K, (st.new_node_neighbours.getD K []).length ≤ mc) →
    applyLayers g x xlevel mc layers st = .ok st1 →
    StagedInv g x mc st1 ∧
    st1.new_node_neighbours.length = st.new_node_neighbours.length ∧
    (∀ K, (st1.new_node_neighbours.getD K []).length ≤ mc) := by
  intro layers
  induction layers with
  | nil =>
    intro st st1 _ hinv _ _ hK hok
    unfold applyLayers at hok
    injection hok with hok
    subst hok
    exact ⟨hinv, rfl, hK⟩
  | cons layer rest ih =>
    intro st st1 hxnot hinv hnd hempty hK hok
    rw [List.map_cons] at hnd
    obtain ⟨hhead, htail⟩ := List.nodup_cons.mp hnd
    unfold applyLayers at hok
    split at hok
    · exact ih hxnot hinv htail
        (fun l hl => hempty l (List.mem_cons_of_mem layer hl)) hK hok
    · split at hok
      · exact absurd hok (by simp)
      · rename_i stm hns
        obtain ⟨hinv1, hlen1, hother1, hL1⟩ := applyNeighbours_inv hxnot hinv hns
        have hKm : ∀ K, (stm.new_node_neighbours.getD K []).length ≤ mc := by
          intro K
          by_cases hKL : K = layer.level
          · subst hKL
            rw [hempty layer (List.mem_cons_self layer rest)] at hL1
            have ht : (layer.neighbours.take mc).length ≤ mc := by
              rw [List.length_take]
              exact Nat.min_le_left mc _
            simp only [List.length_nil] at hL1
            omega
          · rw [hother1 K hKL]
            exact hK K
        have hemptym : ∀ l ∈ rest,
            stm.new_node_neighbours.getD l.level [] = [] := by
          intro l hl
          have hne : l.level ≠ layer.level := by
            intro hc
            exact hhead (hc ▸ List.mem_map.mpr ⟨l, hl, rfl⟩)
          rw [hother1 l.level hne]
          exact hempty l (List.mem_cons_of_mem layer hl)
        obtain ⟨hinv2, hlen2, hK2⟩ := ih hxnot hinv1 htail hemptym hKm hok
        exact ⟨hinv2, hlen2.trans hlen1, hK2⟩

theorem listAt_eq_of_node_eq {g1 g2 : Graph} {n : Nat}
    (h : g1.node n = g2.node n) (L : Nat) : g1.listAt n L = g2.listAt n L := by
  unfold Graph.listAt
  rw [h]

theorem listAt_of_node_some {g : Graph} {n : Nat} {nd : Node}
    (h : g.node n = some nd) (L : Nat) : g.listAt n L = nd.neighboursAt L := by
  unfold Graph.listAt
  rw [h]

theorem listAt_of_node_none {g : Graph} {n : Nat}
    (h : g.node n = none) (L : Nat) : g.listAt n L = [] := by
  unfold Graph.listAt
  rw [h]

theorem node_some_lt {g : Graph} {n : Nat} {nd : Node}
    (h : g.node n = some nd) : n < g.nodes.length := by
  by_contra hge
  rw [Graph.node_def, List.getElem?_eq_none_iff.mpr (by omega)] at h
  exact absurd h (by simp)

theorem GraphInv_of_attach {g ga : Graph} {x lvl mc : Nat}
    (hG : GraphInv g mc) (h : g.attach_node x lvl = (ga, .ok ())) :
    GraphInv ga mc ∧ (∀ n K, x ∉ ga.listAt n K) := by
  obtain ⟨hxnone, hxnew, hother, hent, hpar, hlvl⟩ := attach_node_ok h
  have hlist : ∀ n K, n ≠ x → ga.listAt n K = g.listAt n K :=
    fun n K hn => listAt_eq_of_node_eq (hother n hn) K
  have hxlist : ∀ K, ga.listAt x K = [] := by
    intro K
    rw [listAt_of_node_some hxnew K, neighboursAt_new]
  have hxnot : ∀ n K, x ∉ ga.listAt n K := by
    intro n K hmem
    by_cases hn : n = x
    · rw [hn, hxlist K] at hmem
      exact absurd hmem (List.not_mem_nil x)
    · rw [hlist n K hn] at hmem
      have := (hG n K).2.2.2 x hmem
      rw [hxnone] at this
      simp at this
  refine ⟨?_, hxnot⟩
  intro n K
  by_cases hn : n = x
  · subst hn
    refine ⟨by simp [hxlist], by simp [hxlist], by simp [hxlist], ?_⟩
    intro id hid
    rw [hxlist K] at hid
    exact absurd hid (List.not_mem_nil id)
  · obtain ⟨hl, hnd, hself, hmem⟩ := hG n K
    rw [hlist n K hn]
    refine ⟨hl, hnd, hself, ?_⟩
    intro id hid
    have hatt := hmem id hid
    by_cases hidx : id = x
    · rw [hidx, hxnone] at hatt
      simp at hatt
    · rw [hother id hidx]
      exact hatt

theorem commitUpdates_ok_state :
    ∀ {updates : List (Nat × Nat × List Nat)} {g g2 : Graph}
      {tm : List ((Nat × Nat) × List Nat)},
    commitUpdates updates g tm = (g2, .ok ()) →
    ((updates.map (fun u => (u.1, u.2.1))).Nodup →
      ∀ u ∈ updates, g2.listAt u.1 u.2.1 =
        (lookupStaged tm (u.1, u.2.1)).getD u.2.2) ∧
    (∀ n, (∀ u ∈ updates, u.1 ≠ n) → g2.node n = g.node n) ∧
    (∀ n L, (∀ cs, (n, L, cs) ∉ updates) → g2.listAt n L = g.listAt n L) ∧
    (∀ n, (g2.node n).isSome = (g.node n).isSome) ∧
    g2.params = g.params ∧ g2.entry = g.entry := by
  intro updates
  induction updates with
  | nil =>
    intro g g2 tm h
    unfold commitUpdates at h
    obtain ⟨h1, -⟩ := Prod.mk.injEq .. ▸ h
    subst h1
    exact ⟨fun _ u hu => absurd hu (List.not_mem_nil u), fun n _ => rfl,
      fun n L _ => rfl, fun n => rfl, rfl, rfl⟩
  | cons u rest ih =>
    obtain ⟨n0, L0, cs0⟩ := u
    intro g g2 tm h
    simp only [commitUpdates, removeStaged] at h
    split at h
    · simp [Prod.ext_iff] at h
    · rename_i nd0 hnd0
      have hlt0 : n0 < g.nodes.length := node_some_lt hnd0
      obtain ⟨ih1, ih2, ih3, ih4, ih5, ih6⟩ := ih h
      have hsetnode : ∀ n, n ≠ n0 →
          (g.setNode n0 (nd0.setNeighbours L0
            ((lookupStaged tm (n0, L0)).getD cs0))).node n = g.node n :=
        fun n hn => setNode_node_ne g _ hn
      have hsetself :
          (g.setNode n0 (nd0.setNeighbours L0
            ((lookupStaged tm (n0, L0)).getD cs0))).node n0 =
            some (nd0.setNeighbours L0 ((lookupStaged tm (n0, L0)).getD cs0)) :=
        setNode_node_self g _ hlt0
      refine ⟨?_, ?_, ?_, ?_, ih5, ih6⟩
      · intro hkeys u hu
        rw [List.map_cons] at hkeys
        obtain ⟨hhead, htail⟩ := List.nodup_cons.mp hkeys
        rcases List.mem_cons.mp hu with hu0 | hur
        · subst hu0
          have hnot : ∀ cs, ((n0, L0, cs) : Nat × Nat × List Nat) ∉ rest := by
            intro cs hcs
            exact hhead (List.mem_map.mpr ⟨(n0, L0, cs), hcs, rfl⟩)
          rw [ih3 n0 L0 hnot]
          show _ = (lookupStaged tm (n0, L0)).getD cs0
          rw [listAt_of_node_some hsetself, setNeighbours_at]
          simp
        · have hkne : ((u.1, u.2.1) : Nat × Nat) ≠ (n0, L0) := by
            intro hc
            apply hhead
            rw [← hc]
            exact List.mem_map.mpr ⟨u, hur, rfl⟩
          rw [ih1 htail u hur, lookup_filter_ne hkne]
      · intro n hn
        rw [ih2 n (fun u hu => hn u (List.mem_cons_of_mem _ hu)),
          hsetnode n (fun hc => hn (n0, L0, cs0) (List.mem_cons_self _ _) hc.symm)]
      · intro n L hn
        have hnrest : ∀ cs, ((n, L, cs) : Nat × Nat × List Nat) ∉ rest :=
          fun cs hcs => hn cs (List.mem_cons_of_mem _ hcs)
        rw [ih3 n L hnrest]
        by_cases hnn : n = n0
        · subst hnn
          have hLne : L ≠ L0 := by
            intro hc
            exact hn cs0 (by rw [hc]; exact List.mem_cons_self _ _)
          rw [listAt_of_node_some hsetself, setNeighbours_at, if_neg hLne,
            listAt_of_node_some hnd0]
        · exact listAt_eq_of_node_eq (hsetnode n hnn) L
      · intro n
        rw [ih4 n]
        by_cases hnn : n = n0
        · subst hnn
          rw [hsetself, hnd0]
          rfl
        · rw [hsetnode n hnn]

theorem commit_ok_state {g g2 : Graph} {prep : PreparedInsertion}
    {trims : List TrimResult}
    (h : g.commit_insertion prep trims = (g2, .ok ()))
    (hkeys : (prep.updates.map (fun u => (u.1, u.2.1))).Nodup)
    (hxu : ∀ u ∈ prep.updates, u.1 ≠ prep.node.node) :
    ∃ nd0, g.node prep.node.node = some nd0 ∧
      g2.node prep.node.node = some (nd0.writeAll 0 prep.new_node_neighbours) ∧
      (∀ u ∈ prep.updates, g2.listAt u.1 u.2.1 =
        (lookupStaged (trimMapOf trims) (u.1, u.2.1)).getD u.2.2) ∧
      (∀ n L, n ≠ prep.node.node → (∀ cs, (n, L, cs) ∉ prep.updates) →
        g2.listAt n L = g.listAt n L) ∧
      (∀ n, (g2.node n).isSome = (g.node n).isSome) ∧
      g2.params = g.params := by
  simp only [Graph.commit_insertion] at h
  split at h
  · simp [Prod.ext_iff] at h
  · rename_i nd0 hnd0
    split at h
    · simp [Prod.ext_iff] at h
    · rename_i gc u hupd
      cases u
      obtain ⟨ih1, ih2, ih3, ih4, ih5, ih6⟩ := commitUpdates_ok_state hupd
      have hg2nodes : g2.nodes = gc.nodes := by
        split at h
        · obtain ⟨h1, -⟩ := Prod.mk.injEq .. ▸ h
          rw [← h1]
        · obtain ⟨h1, -⟩ := Prod.mk.injEq .. ▸ h
          rw [← h1]
      have hg2params : g2.params = gc.params := by
        split at h
        · obtain ⟨h1, -⟩ := Prod.mk.injEq .. ▸ h
          rw [← h1]
        · obtain ⟨h1, -⟩ := Prod.mk.injEq .. ▸ h
          rw [← h1]
      have hg2node : ∀ n, g2.node n = gc.node n := by
        intro n
        rw [Graph.node_def, Graph.node_def, hg2nodes]
      have hg2list : ∀ n L, g2.listAt n L = gc.listAt n L :=
        fun n L => listAt_eq_of_node_eq (hg2node n) L
      have hlt : prep.node.node < g.nodes.length := node_some_lt hnd0
      have hgsetself : (g.setNode prep.node.node
          (nd0.writeAll 0 prep.new_node_neighbours)).node prep.node.node =
          some (nd0.writeAll 0 prep.new_node_neighbours) :=
        setNode_node_self g _ hlt
      refine ⟨nd0, hnd0, ?_, ?_, ?_, ?_, ?_⟩
      · rw [hg2node, ih2 prep.node.node hxu, hgsetself]
      · intro u hu
        rw [hg2list]
        exact ih1 hkeys u hu
      · intro n L hn hnu
        rw [hg2list, ih3 n L hnu]
        exact listAt_eq_of_node_eq (setNode_node_ne g _ hn) L
      · intro n
        rw [hg2node, ih4 n]
        by_cases hnn : n = prep.node.node
        · subst hnn
          rw [hgsetself, hnd0]
          rfl
        · rw [setNode_node_ne g _ hnn]
      · rw [hg2params, ih5, setNode_params]

theorem evalTrimJob_ok_props {src : DataSource} {x : Nat} {job : TrimJob}
    {t : TrimResult} (hhead : job.candidates.head? = some x)
    (h : evalTrimJob src x job = .ok t) :
    t.node = job.node ∧ t.level = job.ctx.level ∧
    t.neighbours.length ≤ job.ctx.max_connections ∧
    (∀ id ∈ t.neighbours, id ∈ job.candidates) ∧
    (job.candidates.Nodup → t.neighbours.Nodup) := by
  simp only [evalTrimJob] at h
  rw [prioritise_head hhead] at h
  split at h
  · exact absurd h (by simp)
  · rename_i ds hds
    injection h with h
    subst h
    refine ⟨rfl, rfl, ?_, ?_, ?_⟩
    · dsimp only
      rw [List.length_map, List.length_take]
      exact Nat.min_le_left _ _
    · intro id hid
      obtain ⟨p, hp, hpe⟩ := List.mem_map.mp hid
      have hp2 : p ∈ (job.candidates.zip ds).insertionSort
          (fun a b => a.2 ≤ b.2) := (List.take_sublist _ _).subset hp
      have hp3 : p ∈ job.candidates.zip ds :=
        (List.perm_insertionSort _ _).mem_iff.mp hp2
      exact hpe ▸ (List.of_mem_zip hp3).1
    · intro hnd
      have hzip : (job.candidates.zip ds).map Prod.fst =
          job.candidates.take ds.length := map_fst_zip_take _ _
      have hnd2 : ((job.candidates.zip ds).map Prod.fst).Nodup := by
        rw [hzip]
        exact List.Nodup.sublist (List.take_sublist _ _) hnd
      have hnd3 : (((job.candidates.zip ds).insertionSort
          (fun a b => a.2 ≤ b.2)).map Prod.fst).Nodup :=
        (((List.perm_insertionSort _ _).map Prod.fst)).nodup_iff.mpr hnd2
      dsimp only
      rw [List.map_take]
      exact List.Nodup.sublist (List.take_sublist _ _) hnd3

theorem plan_insertion_levels {g : Graph} {ctx : NodeContext}
    {params : HnswParams} {src : DataSource} {plan0 : InsertionPlan}
    (h : g.plan_insertion ctx params src = .ok plan0) :
    (plan0.layers.map LayerPlan.level).Nodup := by
  simp only [Graph.plan_insertion] at h
  split at h
  · exact absurd h (by simp)
  · split at h
    · injection h with h
      subst h
      simp
    · split at h
      · exact absurd h (by simp)
      · rename_i ds hds
        injection h with h
        subst h
        rw [List.map_map]
        exact List.Nodup.map (fun a b hab => hab)
          (List.nodup_range (ctx.level + 1))

theorem take_for_level_levels {plan0 : InsertionPlan} {lvl : Nat}
    (h : (plan0.layers.map LayerPlan.level).Nodup) :
    ((plan0.take_for_level lvl).layers.map LayerPlan.level).Nodup := by
  unfold InsertionPlan.take_for_level
  exact List.Nodup.sublist (List.Sublist.map LayerPlan.level
    (List.filter_sublist plan0.layers)) h

theorem insert_node_inv {g g2 : Graph} {ctx : NodeContext} {params : HnswParams}
    {src : DataSource}
    (hG : GraphInv g params.max_connections)
    (hok : g.insert_node ctx params src = (g2, .ok ())) :
    GraphInv g2 params.max_connections ∧ g2.params = g.params ∧
    (g2.node ctx.node).isSome = true ∧
    (∀ n, (g.node n).isSome = true → (g2.node n).isSome = true) ∧
    (g.entry.isSome = true → g2.entry.isSome = true) := by
  obtain ⟨plan0, ga, prep, jobs, trims, hplan, happly, htrims, hcommit⟩ :=
    insert_node_ok hok
  have hlv : (((plan0.take_for_level ctx.level).layers).map LayerPlan.level).Nodup :=
    take_for_level_levels (plan_insertion_levels hplan)
  obtain ⟨hattach, st, hst, hprep, hjobs⟩ := apply_insertion_ok happly
  obtain ⟨hGa, hxnot⟩ := GraphInv_of_attach hG hattach
  obtain ⟨hxnone, hxnew, hother, hent, hpar, hlvlle⟩ := attach_node_ok hattach
  have hentry2 := commit_insertion_ok_entry hcommit
  subst hprep
  subst hjobs
  have hst0 : StagedInv ga ctx.node params.max_connections
      ⟨List.replicate (ctx.level + 1) [], [], []⟩ := by
    refine ⟨?_, ?_, ?_, ?_, ?_⟩
    · intro p hp; exact absurd hp (List.not_mem_nil p)
    · simp
    · intro p hp _; exact absurd hp (List.not_mem_nil p)
    · intro job hj; exact absurd hj (List.not_mem_nil job)
    · intro lst hl
      rw [List.eq_of_mem_replicate hl]
      exact ⟨List.nodup_nil, List.not_mem_nil _,
        fun id hid => absurd hid (List.not_mem_nil id)⟩
  obtain ⟨hSt, hnnlen, hKbound⟩ := applyLayers_inv hxnot hst0 hlv
    (fun layer _ => getD_replicate_nil _ _)
    (fun K => by rw [getD_replicate_nil]; simp) hst
  obtain ⟨hS1, hS2, hS3, hS4, hS5⟩ := hSt
  have hupdkeys :
      ((st.staged.map (fun e => (e.1.1, e.1.2, e.2))).map
        (fun u => (u.1, u.2.1))).Nodup := by
    rw [List.map_map]
    exact hS2
  have hxu : ∀ u ∈ st.staged.map (fun e => (e.1.1, e.1.2, e.2)),
      u.1 ≠ ctx.node := by
    intro u hu
    obtain ⟨e, he, hue⟩ := List.mem_map.mp hu
    obtain ⟨hne, -, -⟩ := hS1 e he
    rw [← hue]
    exact hne
  obtain ⟨nd0, hnd0, hx2, hwritten, huntouched, hisSome, hparams2⟩ :=
    commit_ok_state hcommit hupdkeys hxu
  have hnd0new : nd0 = Node.new ctx.level := by
    have := hnd0
    rw [show (PreparedInsertion.mk ctx _ st.new_node_neighbours
      (st.staged.map (fun e => (e.1.1, e.1.2, e.2)))).node.node = ctx.node
      from rfl, hxnew] at this
    injection this with this
    exact this.symm
  have hgasomeg2 : ∀ n, (ga.node n).isSome = true → (g2.node n).isSome = true := by
    intro n hn
    rw [hisSome n]
    exact hn
  have hx2some : (g2.node ctx.node).isSome = true := by
    rw [show (PreparedInsertion.mk ctx _ st.new_node_neighbours
      (st.staged.map (fun e => (e.1.1, e.1.2, e.2)))).node.node = ctx.node
      from rfl] at hx2
    rw [hx2]
    rfl
  have hrec : (nd0.writeAll 0 st.new_node_neighbours).neighbours =
      st.new_node_neighbours := by
    rw [writeAll_eq st.new_node_neighbours nd0 0 ?hlen]
    · rw [List.take_zero, List.nil_append]
    · rw [hnd0new]
      show (List.replicate (ctx.level + 1) ([] : List Nat)).length = _
      rw [List.length_replicate, hnnlen, List.length_replicate]
      omega
  have hxlist2 : ∀ L, g2.listAt ctx.node L = st.new_node_neighbours.getD L [] := by
    intro L
    rw [show (PreparedInsertion.mk ctx _ st.new_node_neighbours
      (st.staged.map (fun e => (e.1.1, e.1.2, e.2)))).node.node = ctx.node
      from rfl] at hx2
    rw [listAt_of_node_some hx2 L]
    unfold Node.neighboursAt
    rw [hrec]
  have hslot : ∀ K, st.new_node_neighbours.getD K [] = [] ∨
      st.new_node_neighbours.getD K [] ∈ st.new_node_neighbours := by
    intro K
    by_cases hKl : K < st.new_node_neighbours.length
    · right
      rw [List.getD_eq_getElem?_getD, List.getElem?_eq_getElem hKl]
      exact List.getElem_mem hKl
    · left
      rw [List.getD_eq_getElem?_getD, List.getElem?_eq_none_iff.mpr (by omega)]
      rfl
  refine ⟨?_, hparams2.trans hpar, hx2some, ?_, ?_⟩
  · intro n L
    by_cases hnx : n = ctx.node
    · subst hnx
      rw [hxlist2 L]
      rcases hslot L with hnilL | hmeml
      · rw [hnilL]
        exact ⟨by simp, List.nodup_nil, List.not_mem_nil _,
          fun id hid => absurd hid (List.not_mem_nil id)⟩
      · obtain ⟨hnd, hxn, hmems⟩ := hS5 _ hmeml
        exact ⟨hKbound L, hnd, hxn, fun id hid => hgasomeg2 id (hmems id hid)⟩
    · by_cases hkey : ∃ cs, ((n, L, cs) : Nat × Nat × List Nat) ∈
          st.staged.map (fun e => (e.1.1, e.1.2, e.2))
      · obtain ⟨cs, hcs⟩ := hkey
        have hw := hwritten (n, L, cs) hcs
        obtain ⟨e, hemem, heeq⟩ := List.mem_map.mp hcs
        have hepair : e.1 = (n, L) ∧ e.2 = cs := by
          obtain ⟨⟨a, b⟩, c⟩ := e
          simp only [Prod.mk.injEq] at heeq
          obtain ⟨h1, h2, h3⟩ := heeq
          exact ⟨by rw [h1, h2], by rw [h3]⟩
        obtain ⟨he1, hecs⟩ := hepair
        obtain ⟨hne, hatt, hval⟩ := hS1 e hemem
        rw [he1, hecs] at hval
        dsimp only at hval
        have hne2 : n ≠ ctx.node := hnx
        have hold := hGa n L
        dsimp only at hw
        cases hlook : lookupStaged (trimMapOf trims) (n, L) with
        | some v =>
          rw [hlook] at hw
          simp only [Option.getD_some] at hw
          rw [hw]
          obtain ⟨t, htmem, htkey, htval⟩ := trimMap_lookup hlook
          obtain ⟨job, hjmem, hjeval⟩ := (mapM_ok_mem htrims).1 t htmem
          obtain ⟨hjne, hjatt, hjmc, hjhead, hjperm⟩ := hS4 job hjmem
          obtain ⟨htn, htl, htlen, htsub, htnd⟩ :=
            evalTrimJob_ok_props hjhead hjeval
          have hjn : job.node = n := by
            have := htkey
            rw [htn, htl] at this
            exact (Prod.mk.injEq .. ▸ this).1
          have hjl : job.ctx.level = L := by
            have := htkey
            rw [htn, htl] at this
            exact (Prod.mk.injEq .. ▸ this).2
          have hcandnd : job.candidates.Nodup := by
            refine hjperm.nodup_iff.mpr ?_
            rw [hjn, hjl]
            exact List.nodup_cons.mpr ⟨hxnot n L, hold.2.1⟩
          rw [← htval]
          refine ⟨by rw [← hjmc]; exact htlen, htnd hcandnd, ?_, ?_⟩
          · intro hself
            have := htsub n hself
            rw [hjperm.mem_iff, hjn, hjl] at this
            rcases List.mem_cons.mp this with hcx | hcold
            · exact hne2 hcx
            · exact hold.2.2.1 hcold
          · intro id hid
            have := htsub id hid
            rw [hjperm.mem_iff, hjn, hjl] at this
            rcases List.mem_cons.mp this with hcx | hcold
            · rw [hcx]
              exact hx2some
            · exact hgasomeg2 id (hold.2.2.2 id hcold)
        | none =>
          rw [hlook] at hw
          simp only [Option.getD_none] at hw
          rw [hw, hval]
          have hlenb : (ga.listAt n L ++ [ctx.node]).length ≤
              params.max_connections := by
            by_contra hgt
            push_neg at hgt
            obtain ⟨job, hjmem, hjn, hjl⟩ := hS3 e hemem (by
              rw [hecs, hval]
              exact hgt)
            obtain ⟨t, htmem, hjeval⟩ := (mapM_ok_mem htrims).2 job hjmem
            obtain ⟨-, -, -, hjhead, -⟩ := hS4 job hjmem
            obtain ⟨htn, htl, -, -, -⟩ := evalTrimJob_ok_props hjhead hjeval
            have := trimMap_present htmem
            rw [htn, htl] at this
            rw [he1] at hjn hjl
            dsimp only at hjn hjl
            rw [hjn, hjl] at this
            rw [hlook] at this
            simp at this
          refine ⟨hlenb, ?_, ?_, ?_⟩
          · exact (List.perm_append_singleton ctx.node
              (ga.listAt n L)).nodup_iff.mpr
              (List.nodup_cons.mpr ⟨hxnot n L, hold.2.1⟩)
          · intro hself
            rcases List.mem_append.mp hself with hcold | hcx
            · exact hold.2.2.1 hcold
            · exact hne2 (List.mem_singleton.mp hcx)
          · intro id hid
            rcases List.mem_append.mp hid with hcold | hcx
            · exact hgasomeg2 id (hold.2.2.2 id hcold)
            · rw [List.mem_singleton.mp hcx]
              exact hx2some
      · push_neg at hkey
        have hw := huntouched n L hnx (fun cs => hkey cs)
        rw [hw]
        obtain ⟨hl, hnd, hself, hmem⟩ := hGa n L
        exact ⟨hl, hnd, hself, fun id hid => hgasomeg2 id (hmem id hid)⟩
  · intro n hn
    apply hgasomeg2
    by_cases hnx : n = ctx.node
    · rw [hnx, hxnew]; rfl
    · rw [hother n hnx]; exact hn
  · intro hgsome
    rw [hentry2]
    split
    · rfl
    · rw [hent]; exact hgsome

theorem insert_preserves_inv {h h1 : CpuHnsw} {node : Nat} {flips : Nat → Bool}
    {src : DataSource} (hinv : CpuInv h)
    (hok : h.insert node flips src = (h1, .ok ())) : CpuInv h1 := by
  obtain ⟨hG, hpar, hempty⟩ := hinv
  simp only [CpuHnsw.insert] at hok
  split at hok
  · rename_i hsome
    split at hok
    · simp [Prod.ext_iff] at hok
    · rename_i g1 u hins
      have h1eq : h1 = ⟨h.params, g1, h.len + 1⟩ := by
        obtain ⟨h1e, -⟩ := Prod.mk.injEq .. ▸ hok
        rw [← h1e]
      have hGh : GraphInv h.graph h.params.max_connections := hG
      obtain ⟨hG2, hpar2, -, -, hent2⟩ := insert_node_inv hGh hins
      subst h1eq
      refine ⟨hG2, hpar2.trans hpar, ?_⟩
      intro hnone
      have := hent2 hsome
      rw [hnone] at this
      simp at this
  · rename_i hnsome
    have hentn : h.graph.entry = none :=
      Option.not_isSome_iff_eq_none.mp (by simpa using hnsome)
    split at hok
    · simp [Prod.ext_iff] at hok
    · split at hok
      · simp [Prod.ext_iff] at hok
      · rename_i g1 u hfirst
        have h1eq : h1 = ⟨h.params, g1, 1⟩ := by
          obtain ⟨h1e, -⟩ := Prod.mk.injEq .. ▸ hok
          rw [← h1e]
        obtain ⟨-, hxnone, hxnew, hother, hent1, hpar1⟩ := insert_first_ok hfirst
        subst h1eq
        refine ⟨?_, hpar1.trans hpar, ?_⟩
        · intro n L
          by_cases hnx : n = node
          · subst hnx
            have hls : g1.listAt n L = [] := by
              rw [listAt_of_node_some hxnew, neighboursAt_new]
            rw [hls]
            exact ⟨by simp, List.nodup_nil, List.not_mem_nil _,
              fun id hid => absurd hid (List.not_mem_nil id)⟩
          · have hn1 : g1.node n = none := by
              rw [hother n hnx]
              exact hempty hentn n
            rw [listAt_of_node_none hn1]
            exact ⟨by simp, List.nodup_nil, List.not_mem_nil _,
              fun id hid => absurd hid (List.not_mem_nil id)⟩
        · intro hcontra
          exact absurd (hent1.symm.trans hcontra) (by simp)

theorem reachable_inv {h : CpuHnsw} (hr : Reachable h) : CpuInv h := by
  induction hr with
  | init params capacity hml hmc hef =>
    have hnone : ∀ n, (CpuHnsw.new params capacity).graph.node n = none := by
      intro n
      show (Graph.new params capacity).node n = none
      unfold Graph.new Graph.node
      rw [List.getD_eq_getElem?_getD, List.getElem?_replicate]
      split <;> rfl
    refine ⟨?_, rfl, fun _ n => hnone n⟩
    intro n L
    rw [listAt_of_node_none (hnone n)]
    exact ⟨by simp, List.nodup_nil, List.not_mem_nil _,
      fun id hid => absurd hid (List.not_mem_nil id)⟩
  | step h h1 node flips src hr hok ih => exact insert_preserves_inv ih hok

/-! ### Claims C2, C3, C4: reachable-state neighbour-list invariants -/

theorem twoRun_reachable : Reachable twoRun :=
  Reachable.step _ _ 1 flipsO lineSrc
    (Reachable.step _ _ 0 flipsF lineSrc
      (Reachable.init P1 0 (by decide) (by decide) (by decide)) rfl) rfl

/-- C3: in every index state reachable by successful insert calls, every
node's neighbour list at every layer holds at most max_connections ids, all
distinct. -/
theorem claim_C3 (h : CpuHnsw) (hr : Reachable h) (n L : Nat) :
    (h.graph.listAt n L).length ≤ h.params.max_connections ∧
    (h.graph.listAt n L).Nodup := by
  obtain ⟨hG, -, -⟩ := reachable_inv hr
  obtain ⟨h1, h2, -, -⟩ := hG n L
  exact ⟨h1, h2⟩

theorem claim_C3_witness :
    Reachable twoRun ∧
    ((twoRun.graph.listAt 1 1).length ≤ twoRun.params.max_connections ∧
      (twoRun.graph.listAt 1 1).Nodup) :=
  ⟨twoRun_reachable, claim_C3 twoRun twoRun_reachable 1 1⟩

/-- C4: in every index state reachable by successful insert calls, no node id
appears in its own neighbour list at any layer. -/
theorem claim_C4 (h : CpuHnsw) (hr : Reachable h) (n L : Nat) :
    n ∉ h.graph.listAt n L :=
  ((reachable_inv hr).1 n L).2.2.1

theorem claim_C4_witness : Reachable twoRun ∧ 1 ∉ twoRun.graph.listAt 1 0 :=
  ⟨twoRun_reachable, claim_C4 twoRun twoRun_reachable 1 0⟩

/-- C2 counterexample: on the line oracle, insert node 0 with an all-false
coin stream (sampled level 0, so node 0 is attached at level 0) and then node
1 with a single-true stream (sampled level 1).  Node 1's layer-1 neighbour
list contains id 0, a node attached at level 0 < 1: plan_insertion reuses the
same candidate set at every layer 0..=level, so the level-participation part
of the claim fails. -/
theorem claim_C2_counterexample :
    sample_level P1.max_level flipsF = 0 ∧
    twoRun = (((CpuHnsw.new P1 0).insert 0 flipsF lineSrc).1.insert 1
      flipsO lineSrc).1 ∧
    twoRun.graph.listAt 1 1 = [0] :=
  ⟨rfl, rfl, rfl⟩

/-- C2 (amended): in every index state reachable by successful insert calls,
each id in any node's neighbour list at any layer refers to a node attached
to the graph.  The original claim's stronger requirement — that the referred
node was attached at a level at least the layer — does not hold, because
plan_insertion offers the same candidates at every layer of the new node and
commit_insertion resizes the target's layer table as needed. -/
theorem claim_C2 (h : CpuHnsw) (hr : Reachable h) (n L id : Nat)
    (hid : id ∈ h.graph.listAt n L) : (h.graph.node id).isSome = true :=
  ((reachable_inv hr).1 n L).2.2.2 id hid

theorem claim_C2_witness :
    Reachable twoRun ∧ 0 ∈ twoRun.graph.listAt 1 1 ∧
    (twoRun.graph.node 0).isSome = true :=
  have hmem : 0 ∈ twoRun.graph.listAt 1 1 := by
    rw [show twoRun.graph.listAt 1 1 = [0] from rfl]
    exact List.mem_cons_self 0 []
  ⟨twoRun_reachable, hmem, claim_C2 twoRun twoRun_reachable 1 1 0 hmem⟩

/-! ### Claim C1: pre-commit errors and the graph state -/

/-- C1 counterexample: on the failing oracle (which errors only on the
query-candidate pair (1, 2)), two inserts succeed; the third insert of node 2
passes planning and application, then fails during trim-job evaluation —
before commit_insertion runs — and returns that oracle error, yet node 2,
absent before the call, is left attached to the graph: apply_insertion
mutates the live graph before the trim jobs are evaluated. -/
theorem claim_C1_counterexample :
    (failRun.insert 2 flipsF trimFailSrc).2 =
      .error (.dataSource (.operation "boom")) ∧
    failRun.graph.node 2 = none ∧
    (failRun.insert 2 flipsF trimFailSrc).1.graph.node 2 = some (Node.new 0) :=
  ⟨rfl, rfl, rfl⟩

/-- C1 (amended): on a non-empty index, if the oracle or a parameter check
fails during the planning stage, the insert call returns that error with the
index in exactly its pre-insertion state.  The original claim's wider scope —
errors during application or parallel trim-job evaluation — does not hold,
because apply_insertion attaches the new node to the live graph before the
trim jobs are evaluated. -/
theorem claim_C1 (h : CpuHnsw) (node : Nat) (flips : Nat → Bool)
    (src : DataSource) (e : HnswError)
    (hent : h.graph.entry.isSome = true)
    (hplan : h.graph.plan_insertion ⟨node, sample_level h.params.max_level flips⟩
      h.params src = .error e) :
    h.insert node flips src = (h, .error e) := by
  simp only [CpuHnsw.insert]
  rw [if_pos hent]
  simp only [Graph.insert_node]
  rw [hplan]

theorem claim_C1_witness :
    twoRun.graph.entry.isSome = true ∧
    twoRun.graph.plan_insertion ⟨2, sample_level twoRun.params.max_level flipsF⟩
      twoRun.params nanSrc = .error (.invalidParameters batchNonFiniteMsg) ∧
    twoRun.insert 2 flipsF nanSrc =
      (twoRun, .error (.invalidParameters batchNonFiniteMsg)) :=
  ⟨rfl, rfl, claim_C1 twoRun 2 flipsF nanSrc _ rfl rfl⟩

/-! ### Claim C6: duplicate rejection -/

/-- C6: calling insert with a node id already attached to a reachable index,
with the oracle succeeding on the planning scan, returns DuplicateNode and
leaves the index state — every neighbour list and the entry point — exactly
as it was: the state returned is the input state itself. -/
theorem claim_C6 (h : CpuHnsw) (node : Nat) (flips : Nat → Bool)
    (src : DataSource) (hr : Reachable h)
    (hatt : (h.graph.node node).isSome = true)
    (hscan : ∃ ds, validate_batch_distances src node
      (h.graph.planCandidates node) = .ok ds) :
    h.insert node flips src = (h, .error (.duplicateNode node)) := by
  obtain ⟨hG, hpar, hempty⟩ := reachable_inv hr
  have hent : h.graph.entry.isSome = true := by
    cases hE : h.graph.entry with
    | none =>
      rw [hempty hE node] at hatt
      exact absurd hatt (by simp)
    | some ep => rfl
  have hlen : node < h.graph.nodes.length := by
    by_contra hge
    rw [Graph.node_def, List.getElem?_eq_none_iff.mpr (by omega)] at hatt
    exact absurd hatt (by simp)
  have hcap : h.graph.ensureCapacity (node + 1) = h.graph := by
    unfold Graph.ensureCapacity
    rw [if_neg (by omega)]
  have hattach : h.graph.attach_node node
      (sample_level h.params.max_level flips) =
      (h.graph, .error (.duplicateNode node)) := by
    simp only [Graph.attach_node]
    rw [if_neg (by rw [hpar]; exact Nat.not_lt.mpr (sample_level_le _ _)), hcap]
    cases hnn : h.graph.nodes[node]? with
    | none =>
      rw [Graph.node_def, hnn] at hatt
      exact absurd hatt (by simp)
    | some slot =>
      have hsl : slot.isSome = true := by
        rw [Graph.node_def, hnn] at hatt
        exact hatt
      dsimp only
      rw [if_pos hsl]
  have hplan : ∃ pl, h.graph.plan_insertion
      ⟨node, sample_level h.params.max_level flips⟩ h.params src = .ok pl := by
    simp only [Graph.plan_insertion]
    rw [show h.graph.entry.isNone = false from by
      cases hE : h.graph.entry with
      | none => rw [hE] at hent; exact absurd hent (by simp)
      | some ep => rfl]
    simp only [Bool.false_eq_true, if_false]
    by_cases hemp : (h.graph.planCandidates node).isEmpty = true
    · rw [if_pos hemp]
      exact ⟨⟨[]⟩, rfl⟩
    · rw [if_neg hemp]
      obtain ⟨ds, hds⟩ := hscan
      rw [hds]
      exact ⟨_, rfl⟩
  obtain ⟨pl, hpl⟩ := hplan
  have happly : h.graph.apply_insertion
      ⟨node, sample_level h.params.max_level flips⟩ h.params
      (pl.take_for_level (sample_level h.params.max_level flips)) =
      (h.graph, .error (.duplicateNode node)) := by
    simp only [Graph.apply_insertion]
    rw [hattach]
  have hnode : h.graph.insert_node
      ⟨node, sample_level h.params.max_level flips⟩ h.params src =
      (h.graph, .error (.duplicateNode node)) := by
    simp only [Graph.insert_node]
    rw [hpl]
    dsimp only
    rw [happly]
  simp only [CpuHnsw.insert]
  rw [if_pos hent, hnode]

theorem claim_C6_witness :
    Reachable twoRun ∧ (twoRun.graph.node 1).isSome = true ∧
    twoRun.insert 1 flipsF lineSrc = (twoRun, .error (.duplicateNode 1)) :=
  ⟨twoRun_reachable, rfl,
   claim_C6 twoRun 1 flipsF lineSrc twoRun_reachable rfl ⟨[1], rfl⟩⟩
